import Mathlib

/-!
# Verification of the sneller query-planning core

This file gives a shallow embedding, in Lean 4, of the central data model and
algorithms of the sneller query planner:

* the expression AST (`Node`) with its structural-equality relation (the Go
  method `Equals`, here `Node.equalsN`) and its binary codec modelled at the
  level of ion datums (`Datum`, `Node.encode`, `decodeNode`);
* predicate decomposition into top-level AND-conjunctions (`conjunctions`,
  `conjoin`);
* path-expression utilities (`IsPath`, `FlatPath`, `MakePath`, `ParsePath`);
* literal-indexing simplification (`indexSimplify`);
* input deduplication and filter-hint merging for leaf scans
  (`mergeFilterHint`, `Input.merge`, `Walker.put`);
* the step lowering of limits and aggregates (`lowerLimit`, `lowerAggregate`);
* the fixed-point rule-rewriting engine (`fpoApply`, `passFrom`,
  `optimizeFuel`).

Modelling conventions:

* Go `int64`/`int` become `Int`; `uint8` counters become `Nat` (with explicit
  `% 256` truncation where the Go code converts).
* Go `float64` is idealised as `Rat`: a `Float` literal carries the exact
  rational value it denotes, conversions between `big.Rat` and `float64` are
  value-preserving, and the Go float comparisons become exact rational
  comparisons.  All concrete inputs used in counterexamples and witnesses are
  chosen so that the corresponding Go `float64` computation is exact as well
  (dyadic rationals of small magnitude), so the verdicts transfer.  NaN and
  infinities have no counterpart in the model.
* Fallible Go functions returning `(T, error)` become `Except String T`
  (or `Option T` when the error text is irrelevant); a Go panic is `none`.
* The ion buffer/symbol-table layer is abstracted away: encoding is modelled
  as producing a structured `Datum` (structs are ordered association lists),
  and the byte-level ion codec is taken as the identity on datums.  The blob
  payload written for rationals (`big.Rat.GobEncode`) is modelled by the
  rational value it encodes.
-/

set_option maxRecDepth 4000

namespace Sneller

/-- `expr.CmpOp`: comparison operations. -/
inductive CmpOp where
  | eq | neq | lt | le | gt | ge
  deriving DecidableEq, Repr

/-- Numeric code of a `CmpOp` (its position in the Go `const` block). -/
def CmpOp.code : CmpOp → Int
  | .eq => 0 | .neq => 1 | .lt => 2 | .le => 3 | .gt => 4 | .ge => 5

/-- Inverse of `CmpOp.code`, used by the decoder. -/
def cmpOpOfCode : Int → Option CmpOp
  | 0 => some .eq | 1 => some .neq | 2 => some .lt
  | 3 => some .le | 4 => some .gt | 5 => some .ge
  | _ => none

/-- `expr.LogicalOp`: logical operations. -/
inductive LogicalOp where
  | and | or | xnor | xor
  deriving DecidableEq, Repr

def LogicalOp.code : LogicalOp → Int
  | .and => 0 | .or => 1 | .xnor => 2 | .xor => 3

def logicalOpOfCode : Int → Option LogicalOp
  | 0 => some .and | 1 => some .or | 2 => some .xnor | 3 => some .xor
  | _ => none

/-- `expr.ArithOp`: binary arithmetic operations. -/
inductive ArithOp where
  | add | sub | mul | div | mod | bitAnd | bitOr | bitXor | sll | sra | srl
  deriving DecidableEq, Repr

def ArithOp.code : ArithOp → Int
  | .add => 0 | .sub => 1 | .mul => 2 | .div => 3 | .mod => 4
  | .bitAnd => 5 | .bitOr => 6 | .bitXor => 7 | .sll => 8 | .sra => 9 | .srl => 10

def arithOpOfCode : Int → Option ArithOp
  | 0 => some .add | 1 => some .sub | 2 => some .mul | 3 => some .div
  | 4 => some .mod | 5 => some .bitAnd | 6 => some .bitOr | 7 => some .bitXor
  | 8 => some .sll | 9 => some .sra | 10 => some .srl
  | _ => none

/-- `expr.UnaryArithOp`. -/
inductive UnaryArithOp where
  | neg | bitNot
  deriving DecidableEq, Repr

def UnaryArithOp.code : UnaryArithOp → Int
  | .neg => 0 | .bitNot => 1

def unaryArithOpOfCode : Int → Option UnaryArithOp
  | 0 => some .neg | 1 => some .bitNot | _ => none

/-- `expr.StringMatchOp` (LIKE, ILIKE, ...). -/
inductive StringMatchOp where
  | like | ilike | similarTo | regexpMatch | regexpMatchCi
  deriving DecidableEq, Repr

def StringMatchOp.code : StringMatchOp → Int
  | .like => 0 | .ilike => 1 | .similarTo => 2 | .regexpMatch => 3 | .regexpMatchCi => 4

def stringMatchOpOfCode : Int → Option StringMatchOp
  | 0 => some .like | 1 => some .ilike | 2 => some .similarTo
  | 3 => some .regexpMatch | 4 => some .regexpMatchCi | _ => none

/-- `expr.Keyword`: the IS-keyword tests. -/
inductive Keyword where
  | isNull | isNotNull | isMissing | isNotMissing
  | isTrue | isNotTrue | isFalse | isNotFalse
  deriving DecidableEq, Repr

def Keyword.code : Keyword → Int
  | .isNull => 0 | .isNotNull => 1 | .isMissing => 2 | .isNotMissing => 3
  | .isTrue => 4 | .isNotTrue => 5 | .isFalse => 6 | .isNotFalse => 7

def keywordOfCode : Int → Option Keyword
  | 0 => some .isNull | 1 => some .isNotNull | 2 => some .isMissing
  | 3 => some .isNotMissing | 4 => some .isTrue | 5 => some .isNotTrue
  | 6 => some .isFalse | 7 => some .isNotFalse | _ => none

/-- `expr.UnionType`. -/
inductive UnionType where
  | unionDistinct | unionAll
  deriving DecidableEq, Repr

def UnionType.code : UnionType → Int
  | .unionDistinct => 0 | .unionAll => 1

def unionTypeOfCode : Int → Option UnionType
  | 0 => some .unionDistinct | 1 => some .unionAll | _ => none

/-- `expr.AggregateOp`: aggregation operations, in declaration order. -/
inductive AggregateOp where
  | opNone | count | sum | avg | min | max | countDistinct | sumInt | sumCount
  | bitAnd | bitOr | bitXor | boolAnd | boolOr | earliest | latest
  | approxCountDistinct | approxCountDistinctPartial | approxCountDistinctMerge
  | variancePop | stdDevPop | rowNumber | rank | denseRank
  | systemDatashape | systemDatashapeMerge
  deriving DecidableEq, Repr

def AggregateOp.code : AggregateOp → Int
  | .opNone => 0 | .count => 1 | .sum => 2 | .avg => 3 | .min => 4 | .max => 5
  | .countDistinct => 6 | .sumInt => 7 | .sumCount => 8 | .bitAnd => 9
  | .bitOr => 10 | .bitXor => 11 | .boolAnd => 12 | .boolOr => 13
  | .earliest => 14 | .latest => 15 | .approxCountDistinct => 16
  | .approxCountDistinctPartial => 17 | .approxCountDistinctMerge => 18
  | .variancePop => 19 | .stdDevPop => 20 | .rowNumber => 21 | .rank => 22
  | .denseRank => 23 | .systemDatashape => 24 | .systemDatashapeMerge => 25

def aggregateOpOfCode : Int → Option AggregateOp
  | 0 => some .opNone | 1 => some .count | 2 => some .sum | 3 => some .avg
  | 4 => some .min | 5 => some .max | 6 => some .countDistinct | 7 => some .sumInt
  | 8 => some .sumCount | 9 => some .bitAnd | 10 => some .bitOr | 11 => some .bitXor
  | 12 => some .boolAnd | 13 => some .boolOr | 14 => some .earliest | 15 => some .latest
  | 16 => some .approxCountDistinct | 17 => some .approxCountDistinctPartial
  | 18 => some .approxCountDistinctMerge | 19 => some .variancePop | 20 => some .stdDevPop
  | 21 => some .rowNumber | 22 => some .rank | 23 => some .denseRank
  | 24 => some .systemDatashape | 25 => some .systemDatashapeMerge
  | _ => none

/-- `(AggregateOp).WindowOnly`: ops valid only with a window function. -/
def AggregateOp.windowOnly : AggregateOp → Bool
  | .rowNumber | .rank | .denseRank => true
  | _ => false

/-- Whether the op is one of the APPROX_COUNT_DISTINCT family (the ops whose
`Encode` emits the `precision` field). -/
def AggregateOp.isApprox : AggregateOp → Bool
  | .approxCountDistinct | .approxCountDistinctPartial | .approxCountDistinctMerge => true
  | _ => false

/-- `expr.BuiltinOp`.  The full builtin table lives outside the embedded
source core; we model the handful of operations the planner core mentions,
plus `unspecified` for by-name calls that resolve to no known builtin. -/
inductive BuiltinOp where
  | makeList | makeStruct | partitionValue | dateTruncDOW | concat
  | unspecified
  deriving DecidableEq, Repr

/-- Modelled from the spec: the builtin name table (`BuiltinOp.String` /
`name2Builtin` live in the builtin catalogue outside the embedded core).
Names are upper-case and `name2Builtin` inverts `String` exactly. -/
def BuiltinOp.nameOf : BuiltinOp → String
  | .makeList => "MAKE_LIST"
  | .makeStruct => "MAKE_STRUCT"
  | .partitionValue => "PARTITION_VALUE"
  | .dateTruncDOW => "DATE_TRUNC_DOW"
  | .concat => "CONCAT"
  | .unspecified => "UNSPECIFIED"

/-- Modelled from the spec: `name2Builtin`, the inverse lookup of the builtin
name table; unknown names yield `unspecified`. -/
def name2Builtin (s : String) : BuiltinOp :=
  if s = "MAKE_LIST" then .makeList
  else if s = "MAKE_STRUCT" then .makeStruct
  else if s = "PARTITION_VALUE" then .partitionValue
  else if s = "DATE_TRUNC_DOW" then .dateTruncDOW
  else if s = "CONCAT" then .concat
  else .unspecified

/-- `(*Builtin).Name()`: the canonical name written by the encoder. -/
def builtinName (fn : BuiltinOp) (text : String) : String :=
  if fn ≠ BuiltinOp.unspecified then fn.nameOf else text.toUpper

/-- An ion datum, the value-level view of the binary ion format.  Structs are
ordered association lists; the byte-level codec is taken as the identity. -/
inductive Datum where
  | null
  | bool (b : Bool)
  | int (i : Int)
  | float (f : Rat)
  | string (s : String)
  | symbol (s : String)
  | blob (r : Rat)
  | timestamp (t : Int)
  | list (items : List Datum)
  | struct (fields : List (String × Datum))
  deriving Repr

/-- `expr.Constant`: the constant subset of AST nodes, as stored inside
`Struct` and `List` literals. -/
inductive Constant where
  | str (s : String)
  | int (i : Int)
  | float (f : Rat)
  | bool (b : Bool)
  | timestamp (t : Int)
  | null
  | rat (r : Rat)
  | structC (fields : List (String × Constant))
  | listC (values : List Constant)
  deriving Repr

/-- `expr.Node`: the expression AST.  Field layout follows the Go structs;
`Option` models nil-able pointers, `Rat` models both `float64` literals and
`big.Rat` rationals (see the header), timestamps are abstract instants. -/
inductive Node where
  | bool (b : Bool)
  | str (s : String)
  | float (f : Rat)
  | int (i : Int)
  | rat (r : Rat)
  | ident (s : String)
  | dot (inner : Node) (field : String)
  | index (inner : Node) (offset : Int)
  | star
  | missing
  | null
  | timestamp (t : Int)
  | member (arg : Node) (set : List Datum)
  | lookup (e : Node) (els : Option Node) (keys : List Datum) (values : List Datum)
  | cmp (op : CmpOp) (left right : Node)
  | stringMatch (op : StringMatchOp) (e : Node) (pattern escape : String)
  | not (e : Node)
  | logical (op : LogicalOp) (left right : Node)
  | builtin (fn : BuiltinOp) (text : String) (args : List Node)
  | unaryArith (op : UnaryArithOp) (child : Node)
  | arith (op : ArithOp) (left right : Node)
  | appended (values : List Node)
  | isKey (e : Node) (key : Keyword)
  | caseExpr (limbs : List (Node × Node)) (els : Option Node) (valence : String)
  | cast (frm : Node) (toTy : Int)
  | structLit (fields : List (String × Constant))
  | listLit (values : List Constant)
  | unpivot (tupleRef : Node) (asName atName : Option String)
  | union (ty : UnionType) (left right : Node)
  | aggregate (op : AggregateOp) (precision : Nat) (inner : Option Node)
      (over : Option (List Node × List (Node × Bool × Bool))) (filter : Option Node)
  deriving Repr

mutual
/-- Equality of ion datums (`ion.Datum.Equal`), used for bag comparisons. -/
def Datum.beq : Datum → Datum → Bool
  | .null, .null => true
  | .bool a, .bool b => a == b
  | .int a, .int b => a == b
  | .float a, .float b => a == b
  | .string a, .string b => a == b
  | .symbol a, .symbol b => a == b
  | .blob a, .blob b => a == b
  | .timestamp a, .timestamp b => a == b
  | .list a, .list b => datumListBeq a b
  | .struct a, .struct b => datumFieldsBeq a b
  | _, _ => false

def datumListBeq : List Datum → List Datum → Bool
  | [], [] => true
  | a :: as, b :: bs => Datum.beq a b && datumListBeq as bs
  | _, _ => false

def datumFieldsBeq : List (String × Datum) → List (String × Datum) → Bool
  | [], [] => true
  | (l, a) :: as, (m, b) :: bs => l == m && Datum.beq a b && datumFieldsBeq as bs
  | _, _ => false
end

/-- Go's `int64(f)` conversion for an (in-range) `float64`: truncation toward
zero. -/
def qtrunc (f : Rat) : Int := if 0 ≤ f then f.floor else f.ceil

/-- The comparison threshold `1e-16` used by `(*Rational).Equals` against
floats (idealised to the exact value of the literal). -/
def ratFloatEps : Rat := 1 / 10 ^ 16

/-- `Float.Equals` (`float` literal against any node), numeric cases only. -/
def floatEqNum (f : Rat) : Node → Bool
  | .float g => f == g
  | .int i => f == (i : Rat)
  | .rat r => r == f
  | _ => false

/-- `Integer.Equals` numeric cases. -/
def intEqNum (i : Int) : Node → Bool
  | .int j => j == i
  | .float f => (qtrunc f : Rat) == f && qtrunc f == i
  | .rat r => r.den == 1 && r.num == i
  | _ => false

/-- `(*Rational).Equals` numeric cases.  The Go comparison against a float is
approximate: `|r - f| < 1e-16`. -/
def ratEqNum (r : Rat) : Node → Bool
  | .rat s => s == r
  | .float f => |r - f| < ratFloatEps
  | .int i => r.den == 1 && r.num == i
  | _ => false

/-- `Float.Equals` cases for constants (same Go methods as for nodes). -/
def floatEqNumC (f : Rat) : Constant → Bool
  | .float g => f == g
  | .int i => f == (i : Rat)
  | .rat r => r == f
  | _ => false

def intEqNumC (i : Int) : Constant → Bool
  | .int j => j == i
  | .float f => (qtrunc f : Rat) == f && qtrunc f == i
  | .rat r => r.den == 1 && r.num == i
  | _ => false

def ratEqNumC (r : Rat) : Constant → Bool
  | .rat s => s == r
  | .float f => |r - f| < ratFloatEps
  | .int i => r.den == 1 && r.num == i
  | _ => false

mutual
/-- `Equals` restricted to the `Constant` subset (struct and list literal
elements); the Go methods are the same ones used by `Node.equalsN`. -/
def constEquals : Constant → Constant → Bool
  | .str a, e => match e with | .str b => a == b | _ => false
  | .int i, e => intEqNumC i e
  | .float f, e => floatEqNumC f e
  | .bool a, e => match e with | .bool b => a == b | _ => false
  | .timestamp t, e => match e with | .timestamp t2 => t == t2 | _ => false
  | .null, e => match e with | .null => true | _ => false
  | .rat r, e => ratEqNumC r e
  | .structC fs, e => match e with
    | .structC fs2 => fs.length == fs2.length && constFieldsEquals fs fs2
    | _ => false
  | .listC vs, e => match e with
    | .listC vs2 => vs.length == vs2.length && constListEquals vs vs2
    | _ => false

def constListEquals : List Constant → List Constant → Bool
  | [], _ => true
  | _ :: _, [] => false
  | a :: as, b :: bs => constEquals a b && constListEquals as bs

def constFieldsEquals : List (String × Constant) → List (String × Constant) → Bool
  | [], _ => true
  | _ :: _, [] => false
  | (l, a) :: as, (m, b) :: bs =>
    l == m && constEquals a b && constFieldsEquals as bs
end

mutual
/-- `Node.Equals`: the structural-equality relation `≡` of the AST, with
value-based cross-representation equality on numeric literals.  Where the Go
code calls `Equivalent` (pointer identity or `Equals`) we call `equalsN`
directly: in the model pointer identity implies structural equality, which
implies `equalsN` by reflexivity (`equalsN_refl`). -/
def Node.equalsN : Node → Node → Bool
  | .bool a, e => match e with | .bool b => a == b | _ => false
  | .str a, e => match e with | .str b => a == b | _ => false
  | .float f, e => floatEqNum f e
  | .int i, e => intEqNum i e
  | .rat r, e => ratEqNum r e
  | .ident a, e => match e with | .ident b => a == b | _ => false
  | .dot i f, e => match e with
    | .dot i2 f2 => f == f2 && Node.equalsN i i2
    | _ => false
  | .index i o, e => match e with
    | .index i2 o2 => o == o2 && Node.equalsN i i2
    | _ => false
  | .star, e => match e with | .star => true | _ => false
  | .missing, e => match e with | .missing => true | _ => false
  | .null, e => match e with | .null => true | _ => false
  | .timestamp t, e => match e with | .timestamp t2 => t == t2 | _ => false
  | .member a s, e => match e with
    | .member a2 s2 => s.length == s2.length && Node.equalsN a a2 && datumListBeq s s2
    | _ => false
  | .lookup x el k v, e => match e with
    | .lookup x2 el2 k2 v2 =>
      Node.equalsN x x2 && optNodeEquiv el el2 && datumListBeq k k2 && datumListBeq v v2
    | _ => false
  | .cmp op l r, e => match e with
    | .cmp op2 l2 r2 => op == op2 && Node.equalsN l l2 && Node.equalsN r r2
    | _ => false
  | .stringMatch op x p esc, e => match e with
    | .stringMatch op2 x2 p2 esc2 =>
      op == op2 && Node.equalsN x x2 && p == p2 && esc == esc2
    | _ => false
  | .not x, e => match e with | .not x2 => Node.equalsN x x2 | _ => false
  | .logical op l r, e => match e with
    | .logical op2 l2 r2 => op == op2 && Node.equalsN l l2 && Node.equalsN r r2
    | _ => false
  | .builtin fn _ args, e => match e with
    | .builtin fn2 _ args2 =>
      fn == fn2 && args.length == args2.length && nodeListEquals args args2
    | _ => false
  | .unaryArith op c, e => match e with
    | .unaryArith op2 c2 => op == op2 && Node.equalsN c c2
    | _ => false
  | .arith op l r, e => match e with
    | .arith op2 l2 r2 => op == op2 && Node.equalsN l l2 && Node.equalsN r r2
    | _ => false
  | .appended vs, e => match e with
    | .appended vs2 => vs.length == vs2.length && nodeListEquals vs vs2
    | _ => false
  | .isKey x k, e => match e with
    | .isKey x2 k2 => k == k2 && Node.equalsN x x2
    | _ => false
  | .caseExpr limbs els _, e => match e with
    | .caseExpr limbs2 els2 _ =>
      limbs.length == limbs2.length && els.isSome == els2.isSome &&
      limbListEquals limbs limbs2 &&
      (match els, els2 with
       | some a, some b => Node.equalsN a b
       | _, _ => true)
    | _ => false
  | .cast f t, e => match e with
    | .cast f2 t2 => t == t2 && Node.equalsN f f2
    | _ => false
  | .structLit fs, e => match e with
    | .structLit fs2 => fs.length == fs2.length && constFieldsEquals fs fs2
    | _ => false
  | .listLit vs, e => match e with
    | .listLit vs2 => vs.length == vs2.length && constListEquals vs vs2
    | _ => false
  | .unpivot t a b, e => match e with
    | .unpivot t2 a2 b2 => a == a2 && b == b2 && Node.equalsN t t2
    | _ => false
  | .union ty l r, e => match e with
    | .union ty2 l2 r2 => ty == ty2 && Node.equalsN l l2 && Node.equalsN r r2
    | _ => false
  | .aggregate op prec inner over filter, e => match e with
    | .aggregate op2 prec2 inner2 over2 filter2 =>
      op == op2 && inner.isSome == inner2.isSome &&
      (match inner, inner2 with
       | some a, some b => Node.equalsN a b
       | _, _ => true) &&
      prec == prec2 &&
      filter.isSome == filter2.isSome &&
      (match filter, filter2 with
       | some a, some b => Node.equalsN a b
       | _, _ => true) &&
      (match over, over2 with
       | none, o2 => o2.isNone
       | some (pb, ob), some (pb2, ob2) =>
         pb.length == pb2.length && nodeListEquals pb pb2 &&
         ob.length == ob2.length && orderListEquals ob ob2
       -- a non-nil Over compared against a nil one dereferences a nil
       -- pointer in Go; the model returns false (unreachable in our proofs)
       | some _, none => false)
    | _ => false

/-- `Equivalent` applied to nil-able nodes (`Lookup.Else`); comparing a
non-nil node against nil panics in Go, the model answers `false`. -/
def optNodeEquiv : Option Node → Option Node → Bool
  | none, none => true
  | some a, some b => Node.equalsN a b
  | _, _ => false

def nodeListEquals : List Node → List Node → Bool
  | [], _ => true
  | _ :: _, [] => false
  | a :: as, b :: bs => Node.equalsN a b && nodeListEquals as bs

def limbListEquals : List (Node × Node) → List (Node × Node) → Bool
  | [], _ => true
  | _ :: _, [] => false
  | (w, t) :: as, (w2, t2) :: bs =>
    Node.equalsN w w2 && Node.equalsN t t2 && limbListEquals as bs

/-- Modelled from the spec: `expr.Order.Equals` (the `Order` struct lives in
the select-statement source outside the embedded core): the sort column is
compared with `≡` and the direction / null-ordering flags exactly. -/
def orderListEquals : List (Node × Bool × Bool) → List (Node × Bool × Bool) → Bool
  | [], _ => true
  | _ :: _, [] => false
  | (c, d, n) :: as, (c2, d2, n2) :: bs =>
    Node.equalsN c c2 && d == d2 && n == n2 && orderListEquals as bs
end

/-- `expr.Equivalent`: Go first tests interface identity (`a == b`) and falls
back to `a.Equals(b)`.  Identity implies structural equality, which implies
`equalsN` by reflexivity, so in the model `Equivalent` is `equalsN`. -/
def Equivalent (a b : Node) : Bool := a.equalsN b

/-- `plan.conjunctions`: appends the top-level AND-conjuncts of `e` to `lst`.
Only a `Logical` node with op `AND` is split; anything else is appended as a
single conjunct. -/
def conjunctions (e : Node) (lst : List Node) : List Node :=
  match e with
  | .logical .and l r => conjunctions l (conjunctions r lst)
  | _ => lst ++ [e]

/-- `plan.conjoin`: left-fold of `expr.And` over a conjunct list.  The Go
code indexes `x[0]`, panicking on an empty list (`none` here). -/
def conjoin : List Node → Option Node
  | [] => none
  | x :: rest => some (rest.foldl (fun o n => .logical .and o n) x)

/-- `expr.IsPath`: a path expression is composed entirely of `Ident`, `Dot`
and `Index` operations. -/
def IsPath : Node → Bool
  | .ident _ => true
  | .dot i _ => IsPath i
  | .index i _ => IsPath i
  | _ => false

/-- `expr.MakePath`: rebuild a path from identifier components.  The Go code
indexes `path[0]`, panicking on an empty list (`none` here). -/
def MakePath : List String → Option Node
  | [] => none
  | s :: rest => some (rest.foldl (fun p f => .dot p f) (.ident s))

/-- `expr.FlatPath`: flatten a path into its components; only `Ident` and
`Dot` nodes are recognised, everything else yields `(nil, false)`. -/
def FlatPath : Node → Option (List String)
  | .ident s => some [s]
  | .dot i f => (FlatPath i).map (fun l => l ++ [f])
  | _ => none

/-- The injection of the `Constant` subset back into `Node` (in Go a
`Constant` simply is a `Node`). -/
def constToNode : Constant → Node
  | .str s => .str s
  | .int i => .int i
  | .float f => .float f
  | .bool b => .bool b
  | .timestamp t => .timestamp t
  | .null => .null
  | .rat r => .rat r
  | .structC fs => .structLit fs
  | .listC vs => .listLit vs

/-- Go slice indexing `l[i]`: `none` models the runtime panic on an
out-of-bounds (in particular negative) index. -/
def goIndex (l : List α) (i : Int) : Option α :=
  if i < 0 then none else l.get? i.toNat

/-- `(*Index).simplify`: rewrite an index into a literal list (a `List` node
or a MAKE_LIST call).  The Go guard is only `i.Offset < len(...)`; `none`
models the slice-index panic a negative offset produces. -/
def indexSimplify (inner : Node) (offset : Int) : Option Node :=
  match inner with
  | .builtin .makeList _ args =>
    if offset < (args.length : Int) then goIndex args offset
    else some .missing
  | .listLit vals =>
    if offset < (vals.length : Int) then (goIndex vals offset).map constToNode
    else some .missing
  | _ => some (.index inner offset)

/-- `strings.Trim(s, "\"")`: strip leading and trailing quote characters. -/
def trimQuotes (s : List Char) : List Char :=
  ((s.dropWhile (· = '"')).reverse.dropWhile (· = '"')).reverse

/-- `strconv.Atoi` on the collected index characters: optional sign followed
by at least one digit. -/
def atoi (cs : List Char) : Option Int :=
  let signed : Int × List Char :=
    match cs with
    | '-' :: rest => (-1, rest)
    | '+' :: rest => (1, rest)
    | _ => (1, cs)
  let ds := signed.2
  if ds.isEmpty then none
  else if ds.all Char.isDigit then
    some (signed.1 * (ds.foldl (fun a c => a * 10 + ((c.toNat : Int) - 48)) 0))
  else none

/-- `pushfield` inside `ParsePath`: unquote, then extend the current path. -/
def pushfield (cur : Option Node) (field : List Char) : Node :=
  let s := String.mk (trimQuotes field)
  match cur with
  | none => .ident s
  | some c => .dot c s

/-- The character loop of `expr.ParsePath`.  `state` is 0 = parsingField,
1 = parsingIndex, 2 = parsingEither; `field` is the collected byte buffer.
In the `parsingEither` state the Go loop consumes the character while only
switching states. -/
def parsePathLoop : List Char → Nat → List Char → Option Node → Except String Node
  | [], state, field, cur =>
    if state = 0 then
      if field.isEmpty then .error "ParsePath: unterminated field expression"
      else .ok (pushfield cur field)
    else if state = 1 && !field.isEmpty then
      .error "ParsePath: unterminated index expression"
    else
      match cur with
      | some c => .ok c
      | none => .error "ParsePath: empty path" -- unreachable: Go would return (nil, nil)
  | c :: rest, state, field, cur =>
    match state with
    | 2 =>
      if c = '[' then parsePathLoop rest 1 field cur
      else parsePathLoop rest 0 field cur
    | 1 =>
      if c = ']' then
        match atoi field with
        | none => .error "bad index"
        | some i =>
          match cur with
          | some cc => parsePathLoop rest 2 [] (some (.index cc i))
          | none => .error "ParsePath: index without base" -- unreachable
      else parsePathLoop rest 1 (field ++ [c]) cur
    | _ =>
      if c = '.' || c = '[' then
        if field.isEmpty then .error "zero-length field not supported"
        else
          parsePathLoop rest (if c = '[' then 1 else 0) [] (some (pushfield cur field))
      else parsePathLoop rest 0 (field ++ [c]) cur

/-- `expr.ParsePath`: parse simple path expressions such as `a.b.z` or
`a[0].y`. -/
def ParsePath (s : String) : Except String Node :=
  parsePathLoop s.data 0 [] none

/-- `expr.Binding`: an expression together with its result name. -/
structure Binding where
  expr : Node
  result : String
  deriving Repr

/-- The `*expr.Aggregate` carried by a `vm.AggBinding` (its fields mirror the
`aggregate` node variant). -/
structure AggExpr where
  op : AggregateOp
  precision : Nat := 0
  inner : Option Node := none
  over : Option (List Node × List (Node × Bool × Bool)) := none
  filter : Option Node := none
  deriving Repr

/-- `vm.AggBinding`: one aggregate expression with its output name; a
`vm.Aggregation` is a list of these. -/
structure AggBinding where
  expr : AggExpr
  result : String
  deriving Repr

/-- The physical plan `Op` tree (`plan` package).  Only the fields the
embedded lowering code reads or writes are modelled; every nonterminal
carries its upstream `From` op last. -/
inductive Op where
  | leaf (orig : Node)
  | filterOp (e : Node) (frm : Op)
  | project (bindings : List Binding) (frm : Op)
  | distinct (fields : List Node) (limit : Int) (frm : Op)
  | limitOp (num : Int) (frm : Op)
  | orderBy (columns : List (Node × Bool × Bool)) (limit offset : Int) (frm : Op)
  | hashAggregate (agg windows : List AggBinding) (groupBy : List Binding)
      (limit : Int) (frm : Op)
  | simpleAggregate (outputs : List AggBinding) (frm : Op)
  | countStar (asName : String) (frm : Op)
  | unnest (e : Node) (result : String) (frm : Op)
  | noOutput
  | dummyOutput
  deriving Repr

/-- `pir.Aggregate`: the IR aggregation step.  `groupBy = none` models the
nil GROUP BY slice of a simple (non-grouped) aggregation. -/
structure PirAggregate where
  agg : List AggBinding
  groupBy : Option (List Binding)
  deriving Repr

/-- `pir.Limit`: the IR limit step (`Count`, `Offset`). -/
structure PirLimit where
  count : Int
  offset : Int
  deriving Repr

/-- `plan.iscountstar`: exactly one aggregate, op COUNT, no FILTER clause,
and the inner expression is `*`. -/
def iscountstar (a : List AggBinding) : Bool :=
  match a with
  | [agg] =>
    agg.expr.op == .count && agg.expr.filter.isNone &&
    (match agg.expr.inner with | some .star => true | _ => false)
  | _ => false

/-- `plan.splitWindows`: stable in-place partition of an aggregation list
into (non-window, window-only) halves. -/
def splitWindows (lst : List AggBinding) : List AggBinding × List AggBinding :=
  (lst.filter (fun b => !b.expr.op.windowOnly),
   lst.filter (fun b => b.expr.op.windowOnly))

/-- The result name of the first aggregate (`in.Agg[0].Result`); only used
under the `iscountstar` guard, so the empty-list default is unreachable. -/
def aggResult0 : List AggBinding → String
  | b :: _ => b.result
  | [] => ""

/-- `plan.lowerAggregate`.  The Go function's error result is always nil. -/
def lowerAggregate (a : PirAggregate) (frm : Op) : Op :=
  match a.groupBy with
  | none =>
    if iscountstar a.agg then .countStar (aggResult0 a.agg) frm
    else .simpleAggregate a.agg frm
  | some gb =>
    let p := splitWindows a.agg
    .hashAggregate p.1 p.2 gb 0 frm

/-- `plan.lowerLimit`: a zero count short-circuits to `NoOutput`; otherwise
hash aggregates, order-bys and distincts absorb the limit natively (with
non-zero offsets rejected except for order-by), and any other upstream op
gets a `Limit` wrapper, rejecting non-zero offsets. -/
def lowerLimit (l : PirLimit) (frm : Op) : Except String Op :=
  if l.count = 0 then .ok .noOutput
  else
    match frm with
    | .hashAggregate agg windows gb _ f =>
      if l.offset ≠ 0 then
        .error "plan: query not supported: non-zero OFFSET of hash aggregate result"
      else .ok (.hashAggregate agg windows gb l.count f)
    | .orderBy cols _ _ f => .ok (.orderBy cols l.count l.offset f)
    | .distinct fields _ f =>
      if l.offset ≠ 0 then
        .error "plan: query not supported: non-zero OFFSET of distinct result"
      else .ok (.distinct fields l.count f)
    | _ =>
      if l.offset ≠ 0 then
        .error "plan: query not supported: OFFSET without GROUP BY/ORDER BY not implemented"
      else .ok (.limitOp l.count frm)

/-- `plan.isTimestamp`: is the node a timestamp literal? -/
def isTimestampNode : Node → Bool
  | .timestamp _ => true
  | _ => false

/-- `plan.canRemoveHint`: a hint may be dropped unless it is a comparison
(or logical composition of comparisons) involving a timestamp literal. -/
def canRemoveHint : Node → Bool
  | .logical _ l r => canRemoveHint l && canRemoveHint r
  | .cmp _ l r => !(isTimestampNode l || isTimestampNode r)
  | _ => true

/-- `plan.Hints`: the push-down hints attached to an input. -/
structure Hints where
  filter : Option Node := none
  fields : List String := []
  allFields : Bool := false
  deriving Repr

/-- `plan.input`: a leaf table expression with its hints and (possibly
cached) stat handle. -/
structure Input where
  table : Node
  hints : Hints
  handle : Option Nat := none
  deriving Repr

/-- Go swap-removal `a[j], a = a[len(a)-1], a[:len(a)-1]`. -/
def swapRemove (l : List α) (j : Nat) : List α :=
  match l.getLast? with
  | none => l
  | some last => (l.set j last).dropLast

/-- The net effect on the unprocessed x-suffix of the swap-removal at the
cursor followed by `i--; continue`: the last element moves to the front of
the remaining suffix. -/
def swapToFront : List α → List α
  | [] => []
  | a :: rest => ((a :: rest).getLast (by simp)) :: (a :: rest).dropLast

/-- The matching loop of `plan.mergeFilterHint`, operating on the two
conjunct lists.  Each x-conjunct is matched against the first equivalent
remaining y-conjunct (both sides swap-removed on a match); an unmatched
conjunct must satisfy `canRemoveHint`.  On success the accumulated overlap
(in match order) is returned. -/
def hintLoop : List Node → List Node → List Node → Option (List Node)
  | [], ys, overlap => if ys.all canRemoveHint then some overlap else none
  | xs@(_ :: _), [], overlap => if xs.all canRemoveHint then some overlap else none
  | v :: rest, ys@(_ :: _), overlap =>
    match ys.findIdx? (fun y => Equivalent y v) with
    | some j => hintLoop (swapToFront rest) (swapRemove ys j) (overlap ++ [v])
    | none =>
      if canRemoveHint v then hintLoop rest ys overlap else none
termination_by xs _ _ => xs.length
decreasing_by
· cases rest with
  | nil => simp [swapToFront]
  | cons a t => simp [swapToFront]
· simp

/-- The conjunct list of an optional filter hint (`conjunctions(f, nil)`
when present, empty otherwise). -/
def filterConj : Option Node → List Node
  | some f => conjunctions f []
  | none => []

/-- `plan.mergeFilterHint`: try to combine the filter hints of two inputs;
on success the merged filter is the conjunction of the overlap (or absent
when the overlap is empty), written into `x`. -/
def mergeFilterHint (x y : Input) : Option Input :=
  match hintLoop (filterConj x.hints.filter) (filterConj y.hints.filter) [] with
  | none => none
  | some overlap =>
    some { x with hints := { x.hints with filter := conjoin overlap } }

/-- `slices.Compact`: collapse consecutive duplicates. -/
def compactAdj : List String → List String
  | [] => []
  | [a] => [a]
  | a :: b :: rest =>
    if a = b then compactAdj (a :: rest) else a :: compactAdj (b :: rest)

/-- `(*input).merge`: tables must be structurally equal and filter hints
mergeable; the cached handle is invalidated and the field hints are
combined (union of fields, sorted and deduplicated, unless either side
wants all fields). -/
def Input.merge (i : Input) (inn : Input) : Option Input :=
  if !(i.table.equalsN inn.table) then none
  else
    match mergeFilterHint i inn with
    | none => none
    | some x0 =>
      let x := { x0 with handle := none }
      if x.hints.allFields then some x
      else if inn.hints.allFields then
        some { x with hints := { x.hints with fields := [], allFields := true } }
      else
        some { x with hints := { x.hints with
          fields := compactAdj ((x.hints.fields ++ inn.hints.fields).mergeSort (· ≤ ·)) } }

/-- `plan.walker`: the accumulating input table and the most recent slot. -/
structure Walker where
  inputs : List Input
  latest : Int
  deriving Repr

/-- The scan of `(*walker).put` over the existing inputs: merge into the
first compatible slot, returning the updated table and the slot index. -/
def putLoop : List Input → Input → Option (List Input × Nat)
  | [], _ => none
  | x :: rest, inn =>
    match x.merge inn with
    | some m => some (m :: rest, 0)
    | none => (putLoop rest inn).map (fun p => (x :: p.1, p.2 + 1))

/-- `(*walker).put`: deduplicate a trial input against the accumulated
input table, appending a fresh slot when no merge succeeds. -/
def Walker.put (w : Walker) (inn : Input) : Walker :=
  match putLoop w.inputs inn with
  | some p => { inputs := p.1, latest := (p.2 : Int) }
  | none => { inputs := w.inputs ++ [inn], latest := (w.inputs.length : Int) }

/-- A PIR step of the trace chain (`pir.Step`).  `kind` stands for the
dynamic type name used for rule dispatch, `data` for the step's payload, and
`parent` is the single parent pointer (nil at the leaf). -/
inductive Step where
  | mk (kind : Nat) (data : Nat) (parent : Option Step)
  deriving Repr

def Step.kind : Step → Nat
  | .mk k _ _ => k

def Step.payload : Step → Nat
  | .mk _ d _ => d

/-- `Step.parent()`. -/
def Step.parent : Step → Option Step
  | .mk _ _ p => p

/-- `Step.setparent(n)`. -/
def Step.setParent : Step → Step → Step
  | .mk k d _, p => .mk k d (some p)

/-- `pir.fpoStatus` together with the rule's returned step.  An `updated`
result models the in-place mutation of the current node (the engine keeps
walking from the same, now-rewritten node); a `replaced` result carries the
replacement node. -/
inductive RuleResult where
  | intact
  | updated (s : Step)
  | replaced (s : Step)
  deriving Repr

/-- A rewriting rule `(*T) → (Step, fpoStatus)` keyed by the dynamic step
type it accepts. -/
abbrev Rule := Step → RuleResult

/-- The optimizer's registered rules: the `add` method appends each rule to
the bucket of its input type, so registration order is preserved per kind. -/
abbrev RuleSet := List (Nat × Rule)

/-- The rule bucket for one step kind, in registration order
(`fpo.rules[name]`). -/
def rulesFor (k : Nat) (rs : RuleSet) : List Rule :=
  (rs.filter (fun r => r.1 = k)).map (fun r => r.2)

/-- The inner loop of `(*fixedPointOptimizer).apply`: try rules in order,
the first non-Intact result wins. -/
def firstNonIntact : List Rule → Step → RuleResult
  | [], _ => .intact
  | r :: rest, s =>
    match r s with
    | .intact => firstNonIntact rest s
    | res => res

/-- `(*fixedPointOptimizer).apply`: dispatch on the dynamic type of `s` and
return the first non-Intact rewriting. -/
def fpoApply (rs : RuleSet) (s : Step) : RuleResult :=
  firstNonIntact (rulesFor s.kind rs) s

/-- One walk of `(*fixedPointOptimizer).optimize` starting at step `s`,
returning the rewritten chain from `s` down and whether any rule fired.
An `intact` step keeps its place and the walk moves to its parent (the
processed prefix is re-attached via `setParent`, which models the `prev`
pointer bookkeeping); `updated`/`replaced` steps restart the walk at the
new node, which takes the current node's place in the chain.  `fuel` bounds
the number of iterations (`none` = the walk did not terminate within
`fuel`). -/
def passFrom (rs : RuleSet) : Nat → Step → Option (Step × Bool)
  | 0, _ => none
  | fuel + 1, s =>
    match fpoApply rs s with
    | .intact =>
      match s.parent with
      | none => some (s, false)
      | some p => (passFrom rs fuel p).map (fun q => (s.setParent q.1, q.2))
    | .updated n => (passFrom rs fuel n).map (fun q => (q.1, true))
    | .replaced n => (passFrom rs fuel n).map (fun q => (q.1, true))

/-- The outer loop of `optimize`: repeat full passes over the chain (from
the trace top) until one reports no change; returns the final top.  `fuel`
bounds both the pass count and each pass). -/
def optimizeFuel (rs : RuleSet) : Nat → Step → Option Step
  | 0, _ => none
  | fuel + 1, t =>
    match passFrom rs (fuel + 1) t with
    | none => none
    | some (t2, false) => some t2
    | some (t2, true) => optimizeFuel rs fuel t2

mutual
/-- `Constant.Datum()`: the ion datum of a literal constant.  A rational
that is an (int64-sized) integer becomes an int datum, any other rational
becomes its float64 value. -/
def constDatum : Constant → Datum
  | .str s => .string s
  | .int i => .int i
  | .float f => .float f
  | .bool b => .bool b
  | .timestamp t => .timestamp t
  | .null => .null
  | .rat r => if r.den = 1 then .int r.num else .float r
  | .structC fs => .struct (constDatumFields fs)
  | .listC vs => .list (constDatumList vs)

def constDatumFields : List (String × Constant) → List (String × Datum)
  | [] => []
  | (l, v) :: rest => (l, constDatum v) :: constDatumFields rest

def constDatumList : List Constant → List Datum
  | [] => []
  | v :: rest => constDatum v :: constDatumList rest
end

mutual
/-- `expr.AsConstant`: convert a literal ion datum into an AST constant
(blob and other exotic datums are not constants).  The Go function also
maps out-of-int64-range uint datums to rationals; the model's single `int`
datum variant subsumes the uint case. -/
def asConstant : Datum → Option Constant
  | .float f => some (.float f)
  | .int i => some (.int i)
  | .string s => some (.str s)
  | .symbol s => some (.str s)
  | .struct fs => (asConstantFields fs).map Constant.structC
  | .list ds => (asConstantList ds).map Constant.listC
  | .timestamp t => some (.timestamp t)
  | .bool b => some (.bool b)
  | .null => some Constant.null
  | .blob _ => none

def asConstantFields : List (String × Datum) → Option (List (String × Constant))
  | [] => some []
  | (l, d) :: rest =>
    match asConstant d, asConstantFields rest with
    | some c, some cs => some ((l, c) :: cs)
    | _, _ => none

def asConstantList : List Datum → Option (List Constant)
  | [] => some []
  | d :: rest =>
    match asConstant d, asConstantList rest with
    | some c, some cs => some (c :: cs)
    | _, _ => none
end

mutual
/-- `Node.Encode`: serialize a node, modelled at the datum level.  Each
struct-encoded variant is tagged with its `type` symbol as the first field;
bare literals (bool, int, float, string, null, timestamp) and symbols
(identifiers) encode as the corresponding primitive datum. -/
def Node.encode : Node → Datum
  | .bool b => .bool b
  | .str s => .string s
  | .float f => .float f
  | .int i => .int i
  | .rat r => .struct [("type", .symbol "rat"), ("blob", .blob r)]
  | .ident s => .symbol s
  | .dot i f =>
    .struct [("type", .symbol "dot"), ("inner", i.encode), ("field", .symbol f)]
  | .index i o =>
    .struct [("type", .symbol "index"), ("inner", i.encode), ("offset", .int o)]
  | .star => .struct [("type", .symbol "star")]
  | .missing => .struct [("type", .symbol "missing")]
  | .null => .null
  | .timestamp t => .timestamp t
  | .member a s =>
    .struct [("type", .symbol "member"), ("arg", a.encode), ("values", .list s)]
  | .lookup e els k v =>
    .struct ([("type", .symbol "lookup"), ("expr", e.encode)] ++
      (match els with | some x => [("else", x.encode)] | none => []) ++
      [("keys", .list k), ("values", .list v)])
  | .cmp op l r =>
    .struct [("type", .symbol "cmp"), ("op", .int op.code),
      ("left", l.encode), ("right", r.encode)]
  | .stringMatch op e p esc =>
    .struct ([("type", .symbol "stringmatch"), ("op", .int op.code),
      ("expr", e.encode), ("pattern", .string p)] ++
      (if esc = "" then [] else [("escape", .string esc)]))
  | .not e => .struct [("type", .symbol "not"), ("inner", e.encode)]
  | .logical op l r =>
    .struct [("type", .symbol "logical"), ("op", .int op.code),
      ("left", l.encode), ("right", r.encode)]
  | .builtin fn text args =>
    .struct [("type", .symbol "builtin"), ("func", .string (builtinName fn text)),
      ("args", .list (encodeList args))]
  | .unaryArith op c =>
    .struct [("type", .symbol "unaryArith"), ("op", .int op.code), ("child", c.encode)]
  | .arith op l r =>
    .struct [("type", .symbol "arith"), ("op", .int op.code),
      ("left", l.encode), ("right", r.encode)]
  | .appended vs => .struct [("type", .symbol "append"), ("values", .list (encodeList vs))]
  | .isKey e k => .struct [("type", .symbol "is"), ("key", .int k.code), ("inner", e.encode)]
  | .caseExpr limbs els valence =>
    .struct ([("type", .symbol "case"), ("limbs", .list (encodeLimbs limbs))] ++
      (match els with | some x => [("else", x.encode)] | none => []) ++
      (if valence = "" then [] else [("valence", .string valence)]))
  | .cast f t => .struct [("type", .symbol "cast"), ("from", f.encode), ("to", .int t)]
  | .structLit fs => .struct [("type", .symbol "struct"), ("value", constDatum (.structC fs))]
  | .listLit vs => .struct [("type", .symbol "list"), ("value", constDatum (.listC vs))]
  | .unpivot t a b =>
    .struct ([("type", .symbol "unpivot"), ("TupleRef", t.encode)] ++
      (match a with | some s => [("As", .string s)] | none => []) ++
      (match b with | some s => [("At", .string s)] | none => []))
  | .union ty l r =>
    .struct [("type", .symbol "union"), ("uniontype", .int ty.code),
      ("left", l.encode), ("right", r.encode)]
  | .aggregate op prec inner over filter =>
    .struct ([("type", .symbol "aggregate"), ("op", .int op.code)] ++
      (if op.isApprox then [("precision", .int (prec : Int))] else []) ++
      (match inner with | some x => [("inner", x.encode)] | none => []) ++
      (match over with
       | some pr =>
         [("over_partition", .list (encodeList pr.1))] ++
         (if pr.2.isEmpty then [] else [("over_order_by", .list (encodeOrders pr.2))])
       | none => []) ++
      (match filter with | some x => [("filter_where", x.encode)] | none => []))

def encodeList : List Node → List Datum
  | [] => []
  | n :: rest => n.encode :: encodeList rest

/-- `Case` limbs encode as `[[when, then], ...]`. -/
def encodeLimbs : List (Node × Node) → List Datum
  | [] => []
  | (w, t) :: rest => .list [w.encode, t.encode] :: encodeLimbs rest

/-- Modelled from the spec: `expr.EncodeOrder` (the `Order` codec lives in
the select-statement source outside the embedded core) writes each ORDER BY
column as a `{column, desc, nulls_last}` struct. -/
def encodeOrders : List (Node × Bool × Bool) → List Datum
  | [] => []
  | (c, d, n) :: rest =>
    .struct [("column", c.encode), ("desc", .bool d), ("nulls_last", .bool n)] :: encodeOrders rest
end

/-- `ion.Field.Int`. -/
def fInt : Datum → Except String Int
  | .int i => .ok i
  | _ => .error "plan/decode: not an integer"

/-- `ion.Field.Uint`. -/
def fUint : Datum → Except String Nat
  | .int i => if 0 ≤ i then .ok i.toNat else .error "plan/decode: not a uint"
  | _ => .error "plan/decode: not a uint"

/-- `ion.Field.String` (accepts strings and symbols). -/
def fString : Datum → Except String String
  | .string s => .ok s
  | .symbol s => .ok s
  | _ => .error "plan/decode: not a string"

/-- `ion.Field.BlobShared` followed by `big.Rat.GobDecode` (the blob payload
is modelled by the rational it encodes). -/
def fBlobRat : Datum → Except String Rat
  | .blob r => .ok r
  | _ => .error "plan/decode: not a blob"

/-- Shorthand for the `errUnexpectedField` rejection. -/
def errUnexpected {α : Type} : Except String α := .error "unexpected field"

/-- Shorthand for a child node that was never set: the Go decoder would
leave a nil pointer behind, which no later consumer can use; the model
rejects the field set instead. -/
def errMissingChild {α : Type} : Except String α := .error "plan/decode: missing required field"

/-- The per-variant field decoders below are the faithful embedding of the
`SetField` methods; each takes the child-datum decoder `dec` as an explicit
argument (tied to the recursion fuel by `decodeNode` below) and folds over
the remaining struct fields in order, rejecting unknown fields with an
`unexpected field` error. -/
def decodeRat (fields : List (String × Datum)) (r : Rat) : Except String Node :=
  match fields with
  | [] => .ok (.rat r)
  | (lbl, d) :: rest =>
    if lbl = "blob" then
      match fBlobRat d with
      | .ok q => decodeRat rest q
      | .error e => .error e
    else errUnexpected

def decodeDot (dec : Datum → Except String Node) (fields : List (String × Datum))
    (inner : Option Node) (f : String) : Except String Node :=
  match fields with
  | [] => match inner with
    | some i => .ok (.dot i f)
    | none => errMissingChild
  | (lbl, d) :: rest =>
    if lbl = "inner" then
      match dec d with
      | .ok n => decodeDot dec rest (some n) f
      | .error e => .error e
    else if lbl = "field" then
      match fString d with
      | .ok s => decodeDot dec rest inner s
      | .error e => .error e
    else errUnexpected

def decodeIndex (dec : Datum → Except String Node) (fields : List (String × Datum))
    (inner : Option Node) (off : Int) : Except String Node :=
  match fields with
  | [] => match inner with
    | some i => .ok (.index i off)
    | none => errMissingChild
  | (lbl, d) :: rest =>
    if lbl = "inner" then
      match dec d with
      | .ok n => decodeIndex dec rest (some n) off
      | .error e => .error e
    else if lbl = "offset" then
      match fInt d with
      | .ok v => decodeIndex dec rest inner v
      | .error e => .error e
    else errUnexpected

def decodeEmpty (fields : List (String × Datum)) (result : Node) : Except String Node :=
  match fields with
  | [] => .ok result
  | _ :: _ => errUnexpected

def decodeMember (dec : Datum → Except String Node) (fields : List (String × Datum))
    (arg : Option Node) (set : List Datum) : Except String Node :=
  match fields with
  | [] => match arg with
    | some a => .ok (.member a set)
    | none => errMissingChild
  | (lbl, d) :: rest =>
    if lbl = "arg" then
      match dec d with
      | .ok n => decodeMember dec rest (some n) set
      | .error e => .error e
    else if lbl = "values" then
      match d with
      | .list items => decodeMember dec rest arg (set ++ items)
      | _ => .error "plan/decode: not a list"
    else errUnexpected

def decodeLookup (dec : Datum → Except String Node) (fields : List (String × Datum))
    (e els : Option Node) (keys vals : List Datum) : Except String Node :=
  match fields with
  | [] => match e with
    | some x => .ok (.lookup x els keys vals)
    | none => errMissingChild
  | (lbl, d) :: rest =>
    if lbl = "expr" then
      match dec d with
      | .ok n => decodeLookup dec rest (some n) els keys vals
      | .error e2 => .error e2
    else if lbl = "else" then
      match dec d with
      | .ok n => decodeLookup dec rest e (some n) keys vals
      | .error e2 => .error e2
    else if lbl = "keys" then
      -- the Go code discards AddList's error here, so a non-list datum is
      -- silently ignored
      match d with
      | .list items => decodeLookup dec rest e els (keys ++ items) vals
      | _ => decodeLookup dec rest e els keys vals
    else if lbl = "values" then
      match d with
      | .list items => decodeLookup dec rest e els keys (vals ++ items)
      | _ => decodeLookup dec rest e els keys vals
    else errUnexpected

def decodeCmp (dec : Datum → Except String Node) (fields : List (String × Datum))
    (op : CmpOp) (l r : Option Node) : Except String Node :=
  match fields with
  | [] => match l, r with
    | some a, some b => .ok (.cmp op a b)
    | _, _ => errMissingChild
  | (lbl, d) :: rest =>
    if lbl = "op" then
      match fUint d with
      | .ok u =>
        match cmpOpOfCode (u : Int) with
        | some c => decodeCmp dec rest c l r
        | none => .error "plan/decode: bad cmp op"
      | .error e => .error e
    else if lbl = "left" then
      match dec d with
      | .ok n => decodeCmp dec rest op (some n) r
      | .error e => .error e
    else if lbl = "right" then
      match dec d with
      | .ok n => decodeCmp dec rest op l (some n)
      | .error e => .error e
    else errUnexpected

def decodeStringMatch (dec : Datum → Except String Node) (fields : List (String × Datum))
    (op : StringMatchOp) (e : Option Node) (pat esc : String) : Except String Node :=
  match fields with
  | [] => match e with
    | some x => .ok (.stringMatch op x pat esc)
    | none => errMissingChild
  | (lbl, d) :: rest =>
    if lbl = "op" then
      match fInt d with
      | .ok v =>
        match stringMatchOpOfCode v with
        | some c => decodeStringMatch dec rest c e pat esc
        | none => .error "plan/decode: bad stringmatch op"
      | .error e2 => .error e2
    else if lbl = "expr" then
      match dec d with
      | .ok n => decodeStringMatch dec rest op (some n) pat esc
      | .error e2 => .error e2
    else if lbl = "pattern" then
      match fString d with
      | .ok s => decodeStringMatch dec rest op e s esc
      | .error e2 => .error e2
    else if lbl = "escape" then
      match fString d with
      | .ok s => decodeStringMatch dec rest op e pat s
      | .error e2 => .error e2
    else errUnexpected

def decodeNot (dec : Datum → Except String Node) (fields : List (String × Datum))
    (e : Option Node) : Except String Node :=
  match fields with
  | [] => match e with
    | some x => .ok (.not x)
    | none => errMissingChild
  | (lbl, d) :: rest =>
    if lbl = "inner" then
      match dec d with
      | .ok n => decodeNot dec rest (some n)
      | .error e2 => .error e2
    else errUnexpected

def decodeLogical (dec : Datum → Except String Node) (fields : List (String × Datum))
    (op : LogicalOp) (l r : Option Node) : Except String Node :=
  match fields with
  | [] => match l, r with
    | some a, some b => .ok (.logical op a b)
    | _, _ => errMissingChild
  | (lbl, d) :: rest =>
    if lbl = "op" then
      match fUint d with
      | .ok u =>
        match logicalOpOfCode (u : Int) with
        | some c => decodeLogical dec rest c l r
        | none => .error "plan/decode: bad logical op"
      | .error e => .error e
    else if lbl = "left" then
      match dec d with
      | .ok n => decodeLogical dec rest op (some n) r
      | .error e => .error e
    else if lbl = "right" then
      match dec d with
      | .ok n => decodeLogical dec rest op l (some n)
      | .error e => .error e
    else errUnexpected

def decodeNodeList (dec : Datum → Except String Node) (items : List Datum) :
    Except String (List Node) :=
  match items with
  | [] => .ok []
  | d :: rest =>
    match dec d with
    | .ok n =>
      match decodeNodeList dec rest with
      | .ok ns => .ok (n :: ns)
      | .error e => .error e
    | .error e => .error e

def decodeBuiltin (dec : Datum → Except String Node) (fields : List (String × Datum))
    (fn : BuiltinOp) (text : String) (args : List Node) : Except String Node :=
  match fields with
  | [] => .ok (.builtin fn text args)
  | (lbl, d) :: rest =>
    if lbl = "func" then
      match fString d with
      | .ok s =>
        let f := name2Builtin s
        decodeBuiltin dec rest f (if f = .unspecified then s else text) args
      | .error e => .error e
    else if lbl = "args" then
      match d with
      | .list items =>
        match decodeNodeList dec items with
        | .ok ns => decodeBuiltin dec rest fn text (args ++ ns)
        | .error e => .error e
      | _ => .error "plan/decode: not a list"
    else errUnexpected

def decodeUnaryArith (dec : Datum → Except String Node) (fields : List (String × Datum))
    (op : UnaryArithOp) (c : Option Node) : Except String Node :=
  match fields with
  | [] => match c with
    | some x => .ok (.unaryArith op x)
    | none => errMissingChild
  | (lbl, d) :: rest =>
    if lbl = "op" then
      match fUint d with
      | .ok u =>
        match unaryArithOpOfCode (u : Int) with
        | some o => decodeUnaryArith dec rest o c
        | none => .error "plan/decode: bad unary op"
      | .error e => .error e
    else if lbl = "child" then
      match dec d with
      | .ok n => decodeUnaryArith dec rest op (some n)
      | .error e => .error e
    else errUnexpected

def decodeArith (dec : Datum → Except String Node) (fields : List (String × Datum))
    (op : ArithOp) (l r : Option Node) : Except String Node :=
  match fields with
  | [] => match l, r with
    | some a, some b => .ok (.arith op a b)
    | _, _ => errMissingChild
  | (lbl, d) :: rest =>
    if lbl = "op" then
      match fUint d with
      | .ok u =>
        match arithOpOfCode (u : Int) with
        | some c => decodeArith dec rest c l r
        | none => .error "plan/decode: bad arith op"
      | .error e => .error e
    else if lbl = "left" then
      match dec d with
      | .ok n => decodeArith dec rest op (some n) r
      | .error e => .error e
    else if lbl = "right" then
      match dec d with
      | .ok n => decodeArith dec rest op l (some n)
      | .error e => .error e
    else errUnexpected

/-- `(*Appended).append`: nested `Appended` values are flattened into the
receiver during decoding. -/
def decodeAppendList (dec : Datum → Except String Node) (items : List Datum)
    (acc : List Node) : Except String (List Node) :=
  match items with
  | [] => .ok acc
  | d :: rest =>
    match dec d with
    | .ok n =>
      match n with
      | .appended inner => decodeAppendList dec rest (acc ++ inner)
      | _ => decodeAppendList dec rest (acc ++ [n])
    | .error e => .error e

def decodeAppend (dec : Datum → Except String Node) (fields : List (String × Datum))
    (vals : List Node) : Except String Node :=
  match fields with
  | [] => .ok (.appended vals)
  | (lbl, d) :: rest =>
    if lbl = "values" then
      match d with
      | .list items =>
        match decodeAppendList dec items vals with
        | .ok vs => decodeAppend dec rest vs
        | .error e => .error e
      | _ => .error "plan/decode: not a list"
    else errUnexpected

def decodeIs (dec : Datum → Except String Node) (fields : List (String × Datum))
    (k : Keyword) (e : Option Node) : Except String Node :=
  match fields with
  | [] => match e with
    | some x => .ok (.isKey x k)
    | none => errMissingChild
  | (lbl, d) :: rest =>
    if lbl = "key" then
      match fUint d with
      | .ok u =>
        match keywordOfCode (u : Int) with
        | some kk => decodeIs dec rest kk e
        | none => .error "plan/decode: bad keyword"
      | .error e2 => .error e2
    else if lbl = "inner" then
      match dec d with
      | .ok n => decodeIs dec rest k (some n)
      | .error e2 => .error e2
    else errUnexpected

/-- Each limb decodes from a two-element (or longer; extra elements are not
read) list `[when, then]`. -/
def decodeLimbList (dec : Datum → Except String Node) (items : List Datum)
    (acc : List (Node × Node)) : Except String (List (Node × Node)) :=
  match items with
  | [] => .ok acc
  | d :: rest =>
    match d with
    | .list (w :: t :: _) =>
      match dec w with
      | .ok wn =>
        match dec t with
        | .ok tn => decodeLimbList dec rest (acc ++ [(wn, tn)])
        | .error e => .error e
      | .error e => .error e
    | _ => .error "plan/decode: bad case limb"

def decodeCase (dec : Datum → Except String Node) (fields : List (String × Datum))
    (limbs : List (Node × Node)) (els : Option Node) (valence : String) :
    Except String Node :=
  match fields with
  | [] => .ok (.caseExpr limbs els valence)
  | (lbl, d) :: rest =>
    if lbl = "limbs" then
      match d with
      | .list items =>
        match decodeLimbList dec items limbs with
        | .ok ls => decodeCase dec rest ls els valence
        | .error e => .error e
      | _ => .error "plan/decode: not a list"
    else if lbl = "else" then
      match dec d with
      | .ok n => decodeCase dec rest limbs (some n) valence
      | .error e => .error e
    else if lbl = "valence" then
      match fString d with
      | .ok s => decodeCase dec rest limbs els s
      | .error e => .error e
    else errUnexpected

def decodeCast (dec : Datum → Except String Node) (fields : List (String × Datum))
    (f : Option Node) (t : Int) : Except String Node :=
  match fields with
  | [] => match f with
    | some x => .ok (.cast x t)
    | none => errMissingChild
  | (lbl, d) :: rest =>
    if lbl = "from" then
      match dec d with
      | .ok n => decodeCast dec rest (some n) t
      | .error e => .error e
    else if lbl = "to" then
      match fInt d with
      | .ok v => decodeCast dec rest f v
      | .error e => .error e
    else errUnexpected

def decodeStructLit (fields : List (String × Datum))
    (acc : Option (List (String × Constant))) : Except String Node :=
  match fields with
  | [] => match acc with
    | some fs => .ok (.structLit fs)
    | none => errMissingChild
  | (lbl, d) :: rest =>
    if lbl = "value" then
      match asConstant d with
      | some (Constant.structC fs) => decodeStructLit rest (some fs)
      | some _ => .error "plan/decode: not a struct"
      | none => .error "plan/decode: cannot use datum as constant"
    else errUnexpected

def decodeListLit (fields : List (String × Datum)) (acc : Option (List Constant)) :
    Except String Node :=
  match fields with
  | [] => match acc with
    | some vs => .ok (.listLit vs)
    | none => errMissingChild
  | (lbl, d) :: rest =>
    if lbl = "value" then
      match asConstant d with
      | some (Constant.listC vs) => decodeListLit rest (some vs)
      | some _ => .error "plan/decode: not a list"
      | none => .error "plan/decode: cannot use datum as constant"
    else errUnexpected

def decodeUnpivot (dec : Datum → Except String Node) (fields : List (String × Datum))
    (t : Option Node) (aN atN : Option String) : Except String Node :=
  match fields with
  | [] => match t with
    | some x => .ok (.unpivot x aN atN)
    | none => errMissingChild
  | (lbl, d) :: rest =>
    if lbl = "As" then
      match fString d with
      | .ok s => decodeUnpivot dec rest t (some s) atN
      | .error e => .error e
    else if lbl = "At" then
      match fString d with
      | .ok s => decodeUnpivot dec rest t aN (some s)
      | .error e => .error e
    else if lbl = "TupleRef" then
      match dec d with
      | .ok n => decodeUnpivot dec rest (some n) aN atN
      | .error e => .error e
    else errUnexpected

def decodeUnion (dec : Datum → Except String Node) (fields : List (String × Datum))
    (ty : UnionType) (l r : Option Node) : Except String Node :=
  match fields with
  | [] => match l, r with
    | some a, some b => .ok (.union ty a b)
    | _, _ => errMissingChild
  | (lbl, d) :: rest =>
    if lbl = "uniontype" then
      match fUint d with
      | .ok u =>
        match unionTypeOfCode (u : Int) with
        | some t => decodeUnion dec rest t l r
        | none => .error "plan/decode: bad union type"
      | .error e => .error e
    else if lbl = "left" then
      match dec d with
      | .ok n => decodeUnion dec rest ty (some n) r
      | .error e => .error e
    else if lbl = "right" then
      match dec d with
      | .ok n => decodeUnion dec rest ty l (some n)
      | .error e => .error e
    else errUnexpected

/-- Modelled from the spec: `expr.decodeOrder`, the inverse of
`encodeOrders`. -/
def decodeOrders (dec : Datum → Except String Node) (items : List Datum) :
    Except String (List (Node × Bool × Bool)) :=
  match items with
  | [] => .ok []
  | d :: rest =>
    match d with
    | .struct [("column", c), ("desc", Datum.bool dsc), ("nulls_last", Datum.bool nl)] =>
      match dec c with
      | .ok cn =>
        match decodeOrders dec rest with
        | .ok os => .ok ((cn, dsc, nl) :: os)
        | .error e => .error e
      | .error e => .error e
    | _ => .error "plan/decode: bad order"

def decodeAggregate (dec : Datum → Except String Node) (fields : List (String × Datum))
    (op : AggregateOp) (prec : Nat) (inner : Option Node)
    (over : Option (List Node × List (Node × Bool × Bool)))
    (filter : Option Node) : Except String Node :=
  match fields with
  | [] => .ok (.aggregate op prec inner over filter)
  | (lbl, d) :: rest =>
    if lbl = "op" then
      match fUint d with
      | .ok u =>
        match aggregateOpOfCode (u : Int) with
        | some o => decodeAggregate dec rest o prec inner over filter
        | none => .error "plan/decode: bad aggregate op"
      | .error e => .error e
    else if lbl = "inner" then
      match dec d with
      | .ok n => decodeAggregate dec rest op prec (some n) over filter
      | .error e => .error e
    else if lbl = "over_partition" then
      match d with
      | .list items =>
        match decodeNodeList dec items with
        | .ok ns =>
          let w := over.getD ([], [])
          decodeAggregate dec rest op prec inner (some (w.1 ++ ns, w.2)) filter
        | .error e => .error e
      | _ => .error "plan/decode: not a list"
    else if lbl = "over_order_by" then
      match d with
      | .list items =>
        match decodeOrders dec items with
        | .ok os =>
          let w := over.getD ([], [])
          decodeAggregate dec rest op prec inner (some (w.1, os)) filter
        | .error e => .error e
      | _ => .error "plan/decode: not a list"
    else if lbl = "filter_where" then
      match dec d with
      | .ok n => decodeAggregate dec rest op prec inner over (some n)
      | .error e => .error e
    else if lbl = "precision" then
      match fUint d with
      | .ok p => decodeAggregate dec rest op (p % 256) inner over filter
      | .error e => .error e
    else errUnexpected

/-- The struct dispatcher of `expr.Decode`: the variant is chosen by the
leading `type` symbol and the remaining fields are fed to the variant's
`SetField` in order; enum codes outside the Go `const` ranges are rejected
here, where Go would store the raw value. -/
def decodeStructBody (dec : Datum → Except String Node) (ty : String)
    (fields : List (String × Datum)) : Except String Node :=
  if ty = "rat" then decodeRat fields 0
  else if ty = "dot" then decodeDot dec fields none ""
  else if ty = "index" then decodeIndex dec fields none 0
  else if ty = "star" then decodeEmpty fields .star
  else if ty = "missing" then decodeEmpty fields .missing
  else if ty = "member" then decodeMember dec fields none []
  else if ty = "lookup" then decodeLookup dec fields none none [] []
  else if ty = "cmp" then decodeCmp dec fields .eq none none
  else if ty = "stringmatch" then decodeStringMatch dec fields .like none "" ""
  else if ty = "not" then decodeNot dec fields none
  else if ty = "logical" then decodeLogical dec fields .and none none
  else if ty = "builtin" then decodeBuiltin dec fields .unspecified "" []
  else if ty = "unaryArith" then decodeUnaryArith dec fields .neg none
  else if ty = "arith" then decodeArith dec fields .add none none
  else if ty = "append" then decodeAppend dec fields []
  else if ty = "is" then decodeIs dec fields .isNull none
  else if ty = "case" then decodeCase dec fields [] none ""
  else if ty = "cast" then decodeCast dec fields none 0
  else if ty = "struct" then decodeStructLit fields none
  else if ty = "list" then decodeListLit fields none
  else if ty = "unpivot" then decodeUnpivot dec fields none none none
  else if ty = "union" then decodeUnion dec fields .unionDistinct none none
  else if ty = "aggregate" then decodeAggregate dec fields .opNone 0 none none none
  else .error "plan/decode: unknown node type"

/-- Modelled from the spec: the top-level `expr.Decode` dispatcher (its body
lives in the decode source file outside the embedded core): bare primitives
decode to the corresponding literal node (symbols to identifiers); a struct
is dispatched on its leading `type` symbol via `decodeStructBody`.  The Go
recursion is unbounded; the model makes it structural on an explicit depth
budget `fuel`, which is exceeded by no datum of structure depth below
`fuel` (`decode` below supplies a sufficient budget). -/
def decodeNode : Nat → Datum → Except String Node
  | 0, _ => .error "plan/decode: depth limit exceeded"
  | _ + 1, .null => .ok .null
  | _ + 1, .bool b => .ok (.bool b)
  | _ + 1, .int i => .ok (.int i)
  | _ + 1, .float f => .ok (.float f)
  | _ + 1, .string s => .ok (.str s)
  | _ + 1, .symbol s => .ok (.ident s)
  | _ + 1, .timestamp t => .ok (.timestamp t)
  | _ + 1, .blob _ => .error "plan/decode: unexpected blob"
  | _ + 1, .list _ => .error "plan/decode: unexpected list"
  | fuel + 1, .struct (("type", Datum.symbol ty) :: fields) =>
    decodeStructBody (decodeNode fuel) ty fields
  | _ + 1, .struct _ => .error "plan/decode: missing type field"


/-- Is the node an `Appended` node?  (`(*Appended).append` flattens such
values, so decoding re-flattens them.) -/
def isAppendedNode : Node → Bool
  | .appended _ => true
  | _ => false

mutual
/-- The codec wellformedness invariant maintained by the Go constructors:
`Precision` is only non-zero (and byte-sized) on the APPROX_COUNT_DISTINCT
aggregate family, a by-name builtin (`Func == Unspecified`) has a name that
does not resolve to a known builtin, and `Appended.Values` holds no directly
nested `Appended` (the `Append` constructor flattens them). -/
def wellFormed : Node → Bool
  | .bool _ => true
  | .str _ => true
  | .float _ => true
  | .int _ => true
  | .rat _ => true
  | .ident _ => true
  | .dot i _ => wellFormed i
  | .index i _ => wellFormed i
  | .star => true
  | .missing => true
  | .null => true
  | .timestamp _ => true
  | .member a _ => wellFormed a
  | .lookup e els _ _ => wellFormed e && wfOpt els
  | .cmp _ l r => wellFormed l && wellFormed r
  | .stringMatch _ e _ _ => wellFormed e
  | .not e => wellFormed e
  | .logical _ l r => wellFormed l && wellFormed r
  | .builtin fn text args =>
    (!(fn == .unspecified) || name2Builtin text.toUpper == .unspecified) && wfList args
  | .unaryArith _ c => wellFormed c
  | .arith _ l r => wellFormed l && wellFormed r
  | .appended vs => vs.all (fun v => !isAppendedNode v) && wfList vs
  | .isKey e _ => wellFormed e
  | .caseExpr limbs els _ => wfLimbs limbs && wfOpt els
  | .cast f _ => wellFormed f
  | .structLit _ => true
  | .listLit _ => true
  | .unpivot t _ _ => wellFormed t
  | .union _ l r => wellFormed l && wellFormed r
  | .aggregate op prec inner over filter =>
    (if op.isApprox then decide (prec < 256) else prec == 0) &&
    wfOpt inner && wfOpt filter &&
    (match over with
     | some pr => wfList pr.1 && wfOrders pr.2
     | none => true)

def wfOpt : Option Node → Bool
  | none => true
  | some n => wellFormed n

def wfList : List Node → Bool
  | [] => true
  | n :: rest => wellFormed n && wfList rest

def wfLimbs : List (Node × Node) → Bool
  | [] => true
  | (w, t) :: rest => wellFormed w && wellFormed t && wfLimbs rest

def wfOrders : List (Node × Bool × Bool) → Bool
  | [] => true
  | (c, _, _) :: rest => wellFormed c && wfOrders rest
end

/-- The over-window component of the aggregate wellformedness invariant
(the `match` in `wellFormed`'s aggregate arm, as a named function). -/
def aggOverWF : Option (List Node × List (Node × Bool × Bool)) → Bool
  | some pr => wfList pr.1 && wfOrders pr.2
  | none => true

/-- Whether a conjunct has an equivalent counterpart on the other side
(matching the orientation `Equivalent(y, v)` used by the merge loop). -/
def sharedIn (ys : List Node) (v : Node) : Bool :=
  ys.any (fun y => Equivalent y v)

/-- The ops that absorb a `Limit` natively in `lowerLimit` (hash aggregate,
order-by, distinct). -/
def absorbsLimit : Op → Bool
  | .hashAggregate _ _ _ _ _ => true
  | .orderBy _ _ _ _ => true
  | .distinct _ _ _ => true
  | _ => false

/-- Is the op a `HashAggregate`? -/
def isHashAggregate : Op → Bool
  | .hashAggregate _ _ _ _ _ => true
  | _ => false

/-- Is the node a `Logical` node with op `AND` (the only shape that
`conjunctions` splits)? -/
def isAndNode : Node → Bool
  | .logical .and _ _ => true
  | _ => false

/-- A path made of `Ident` and `Dot` only (no `Index`): the domain on which
`FlatPath` succeeds. -/
def isDotPath : Node → Bool
  | .ident _ => true
  | .dot i _ => isDotPath i
  | _ => false

/-- Integer or float literal. -/
def intFloatLit : Node → Bool
  | .int _ => true
  | .float _ => true
  | _ => false

/-- The exact rational value of an integer or float literal. -/
def intFloatVal : Node → Option Rat
  | .int i => some (i : Rat)
  | .float f => some f
  | _ => none

/-- Symmetrised non-equivalence of two conjuncts: no match in either
orientation of `Equivalent`.  A conjunct list that is `Pairwise NonEquiv`
is duplicate-free up to expression equivalence. -/
def NonEquiv (a b : Node) : Prop :=
  Equivalent a b ≠ true ∧ Equivalent b a ≠ true

/-- Every conjunct of `xs` that has no equivalent counterpart in `ys` is
safely removable (`canRemoveHint`). -/
def removableUnshared (xs ys : List Node) : Prop :=
  ∀ v ∈ xs, sharedIn ys v = false → canRemoveHint v = true

/-! ## Theorems -/

/-- C10: lowering a `Limit` step whose count is zero produces `NoOutput` for
every upstream op and every offset; the zero-count check precedes offset
validation, so `LIMIT 0` with a non-zero offset succeeds with `NoOutput`
rather than returning the offset rejection error. -/
theorem limit_zero_lowers_to_no_output (off : Int) (frm : Op) :
    lowerLimit { count := 0, offset := off } frm = .ok .noOutput := by
  simp [lowerLimit]

/-- C6: lowering a `Limit` with non-zero count: a `HashAggregate` or a
`Distinct` below absorbs the limit and fails with a compile error exactly
when the offset is non-zero; an `OrderBy` absorbs both the limit and any
offset without error; any other op yields a `Limit` wrapper, failing
exactly when the offset is non-zero. -/
theorem lower_limit_folding (l : PirLimit) (hc : l.count ≠ 0) :
    (∀ agg windows gb lim f,
       lowerLimit l (.hashAggregate agg windows gb lim f) =
         if l.offset = 0 then .ok (.hashAggregate agg windows gb l.count f)
         else .error "plan: query not supported: non-zero OFFSET of hash aggregate result") ∧
    (∀ cols lim off f,
       lowerLimit l (.orderBy cols lim off f) = .ok (.orderBy cols l.count l.offset f)) ∧
    (∀ fields lim f,
       lowerLimit l (.distinct fields lim f) =
         if l.offset = 0 then .ok (.distinct fields l.count f)
         else .error "plan: query not supported: non-zero OFFSET of distinct result") ∧
    (∀ frm, absorbsLimit frm = false →
       lowerLimit l frm =
         if l.offset = 0 then .ok (.limitOp l.count frm)
         else .error "plan: query not supported: OFFSET without GROUP BY/ORDER BY not implemented") := by
  refine ⟨?_, ?_, ?_, ?_⟩
  · intro agg windows gb lim f
    by_cases h : l.offset = 0 <;> simp [lowerLimit, hc, h]
  · intro cols lim off f
    simp [lowerLimit, hc]
  · intro fields lim f
    by_cases h : l.offset = 0 <;> simp [lowerLimit, hc, h]
  · intro frm hfrm
    by_cases h : l.offset = 0 <;>
      cases frm <;> simp_all [lowerLimit, absorbsLimit, hc, h]

/-- Witness for `lower_limit_folding` at `LIMIT 5` over an `OrderBy`. -/
theorem lower_limit_folding_witness :
    (5 : Int) ≠ 0 ∧
    lowerLimit { count := 5, offset := 2 } (.orderBy [] 0 0 .noOutput) =
      .ok (.orderBy [] 5 2 .noOutput) :=
  ⟨by decide, (lower_limit_folding { count := 5, offset := 2 } (by decide)).2.1 [] 0 0 .noOutput⟩

/-- C4 counterexample: an `Aggregate` step with an empty GROUP BY whose
aggregate list is a single window aggregate (`ROW_NUMBER`) lowers to
`SimpleAggregate`, not to a `HashAggregate` with split `(agg, window)` as
the claim states. -/
theorem lower_aggregate_counterexample :
    lowerAggregate
      { agg := [{ expr := { op := .rowNumber }, result := "rn" }], groupBy := none }
      .dummyOutput
      = .simpleAggregate [{ expr := { op := .rowNumber }, result := "rn" }] .dummyOutput
    ∧ isHashAggregate
        (lowerAggregate
          { agg := [{ expr := { op := .rowNumber }, result := "rn" }], groupBy := none }
          .dummyOutput) = false := by
  constructor <;> rfl

/-- C4 (amended): with an empty (nil) GROUP BY, lowering produces
`CountStar` when the aggregate list is exactly one unfiltered `COUNT(*)`
and `SimpleAggregate` otherwise — even when window aggregates are present;
with a non-empty GROUP BY it produces `HashAggregate` whose aggregate list
is split into the pair (non-window aggregates, window aggregates). -/
theorem lower_aggregate_cases (a : PirAggregate) (frm : Op) :
    (a.groupBy = none →
      (∀ b, a.agg = [b] → b.expr.op = .count → b.expr.filter = none →
        b.expr.inner = some .star →
        lowerAggregate a frm = .countStar b.result frm) ∧
      (iscountstar a.agg = false →
        lowerAggregate a frm = .simpleAggregate a.agg frm)) ∧
    (∀ gb, a.groupBy = some gb →
      lowerAggregate a frm =
        .hashAggregate (a.agg.filter (fun b => !b.expr.op.windowOnly))
          (a.agg.filter (fun b => b.expr.op.windowOnly)) gb 0 frm) := by
  constructor
  · intro hgb
    constructor
    · intro b hagg hop hfil hinner
      have hcs : iscountstar [b] = true := by
        simp [iscountstar, hop, hfil, hinner]
      simp [lowerAggregate, hgb, hagg, hcs, aggResult0]
    · intro hcs
      simp [lowerAggregate, hgb, hcs]
  · intro gb hgb
    simp [lowerAggregate, hgb, splitWindows]

/-- Witness for `lower_aggregate_cases`: `COUNT(*)` with no GROUP BY lowers
to `CountStar`. -/
theorem lower_aggregate_cases_witness :
    lowerAggregate
      { agg := [{ expr := { op := .count, inner := some .star }, result := "c" }],
        groupBy := none } .dummyOutput
      = .countStar "c" .dummyOutput :=
  ((lower_aggregate_cases _ _).1 rfl).1 _ rfl rfl rfl rfl

/-- Accumulator generalisation for `conjunctions`: the initial list is a
prefix of the result. -/
theorem conjunctions_append (e : Node) (lst : List Node) :
    conjunctions e lst = lst ++ conjunctions e [] :=
  match e with
  | .logical .and l r => by
    show conjunctions l (conjunctions r lst) = lst ++ conjunctions l (conjunctions r [])
    rw [conjunctions_append l (conjunctions r lst), conjunctions_append r lst,
        conjunctions_append l (conjunctions r []), List.append_assoc]
  | .logical .or _ _ => rfl
  | .logical .xnor _ _ => rfl
  | .logical .xor _ _ => rfl
  | .bool _ => rfl
  | .str _ => rfl
  | .float _ => rfl
  | .int _ => rfl
  | .rat _ => rfl
  | .ident _ => rfl
  | .dot _ _ => rfl
  | .index _ _ => rfl
  | .star => rfl
  | .missing => rfl
  | .null => rfl
  | .timestamp _ => rfl
  | .member _ _ => rfl
  | .lookup _ _ _ _ => rfl
  | .cmp _ _ _ => rfl
  | .stringMatch _ _ _ _ => rfl
  | .not _ => rfl
  | .builtin _ _ _ => rfl
  | .unaryArith _ _ => rfl
  | .arith _ _ _ => rfl
  | .appended _ => rfl
  | .isKey _ _ => rfl
  | .caseExpr _ _ _ => rfl
  | .cast _ _ => rfl
  | .structLit _ => rfl
  | .listLit _ => rfl
  | .unpivot _ _ _ => rfl
  | .union _ _ _ => rfl
  | .aggregate _ _ _ _ _ => rfl
termination_by sizeOf e

/-- C7 counterexample: decomposing `a AND b` with an empty accumulator
yields `[b, a]` — the right operand's conjunctions first — not `[a, b]` as
the claim's order states. -/
theorem conjunctions_counterexample :
    conjunctions (.logical .and (.ident "a") (.ident "b")) [] =
      [.ident "b", .ident "a"] ∧
    conjunctions (.logical .and (.ident "a") (.ident "b")) [] ≠
      [.ident "a", .ident "b"] := by
  refine ⟨rfl, ?_⟩
  intro h
  rw [show conjunctions (.logical .and (.ident "a") (.ident "b")) [] =
        [.ident "b", .ident "a"] from rfl] at h
  simp at h

/-- C7 (amended): for `and(x, y)` the decomposition appends the conjunctions
of `y` followed by the conjunctions of `x` after the accumulator; for any
non-AND expression it appends that single expression. -/
theorem conjunctions_decomposition (x y e : Node) (lst : List Node)
    (h : isAndNode e = false) :
    conjunctions (.logical .and x y) lst =
      lst ++ (conjunctions y [] ++ conjunctions x []) ∧
    conjunctions e lst = lst ++ [e] := by
  constructor
  · show conjunctions x (conjunctions y lst) = lst ++ (conjunctions y [] ++ conjunctions x [])
    rw [conjunctions_append x (conjunctions y lst), conjunctions_append y lst,
        List.append_assoc]
  · cases e with
    | logical op l r => cases op <;> simp_all [isAndNode, conjunctions]
    | _ => rfl

/-- Witness for `conjunctions_decomposition` at `x = a`, `y = b`,
`e = c`, accumulator `[d]`. -/
theorem conjunctions_decomposition_witness :
    isAndNode (.ident "c") = false ∧
    (conjunctions (.logical .and (.ident "a") (.ident "b")) [.ident "d"] =
       [.ident "d"] ++ (conjunctions (.ident "b") [] ++ conjunctions (.ident "a") []) ∧
     conjunctions (.ident "c") [.ident "d"] = [.ident "d"] ++ [.ident "c"]) :=
  ⟨rfl, conjunctions_decomposition (.ident "a") (.ident "b") (.ident "c") [.ident "d"] rfl⟩

set_option maxHeartbeats 3200000 in
/-- Unfolding: `equalsN` on identifier nodes is string equality. -/
theorem equalsN_ident (s t : String) : (Node.ident s).equalsN (.ident t) = (s == t) := by
  simp [Node.equalsN]

set_option maxHeartbeats 3200000 in
/-- Unfolding: `equalsN` on dot nodes compares the field and the inner
node. -/
theorem equalsN_dot (i : Node) (f : String) (j : Node) (g : String) :
    (Node.dot i f).equalsN (.dot j g) = (f == g && i.equalsN j) := by
  simp [Node.equalsN]

/-- C8 counterexample: `a[0]` is a path expression by `IsPath` (identifier,
dot and index operations), yet `FlatPath` does not flatten `Index` nodes,
so the round trip `MakePath(FlatPath(p)) ≡ p` fails for it: there is no
component list to rebuild from. -/
theorem path_roundtrip_counterexample :
    IsPath (.index (.ident "a") 0) = true ∧
    FlatPath (.index (.ident "a") 0) = none :=
  ⟨rfl, rfl⟩

/-- C8 (amended): for every index-free path `p` (identifiers and dots only)
`FlatPath` succeeds and `MakePath (FlatPath p) ≡ p`; on any path expression
containing an `Index`, `FlatPath` fails. -/
theorem path_roundtrip (p : Node) :
    (isDotPath p = true →
      ∃ l q, FlatPath p = some l ∧ MakePath l = some q ∧ q.equalsN p = true) ∧
    (IsPath p = true → isDotPath p = false → FlatPath p = none) := by
  induction p using isDotPath.induct with
  | case1 s =>
    refine ⟨fun _ => ⟨[s], .ident s, rfl, rfl, ?_⟩, fun _ h => by simp [isDotPath] at h⟩
    simp [equalsN_ident]
  | case2 i f ih =>
    constructor
    · intro hp
      have hip : isDotPath i = true := by simpa [isDotPath] using hp
      obtain ⟨l, q, hfl, hmk, heq⟩ := ih.1 hip
      cases l with
      | nil => simp [MakePath] at hmk
      | cons s rest =>
        refine ⟨s :: (rest ++ [f]), .dot q f, ?_, ?_, ?_⟩
        · simp [FlatPath, hfl]
        · simp only [MakePath, Option.some.injEq] at hmk ⊢
          rw [List.foldl_append]
          simp [hmk]
        · simp [equalsN_dot, heq]
    · intro hpath hdp
      have h1 : IsPath i = true := by simpa [IsPath] using hpath
      have h2 : FlatPath i = none := ih.2 h1 (by simpa [isDotPath] using hdp)
      simp [FlatPath, h2]
  | case3 p h1 h2 =>
    refine ⟨fun hd => ?_, fun hp hd => ?_⟩
    · cases p <;> simp_all [isDotPath]
    · cases p <;> simp_all [isDotPath, IsPath, FlatPath]

/-- Witness for `path_roundtrip` at `p = a.b`. -/
theorem path_roundtrip_witness :
    ∃ l q, FlatPath (.dot (.ident "a") "b") = some l ∧ MakePath l = some q ∧
      q.equalsN (.dot (.ident "a") "b") = true :=
  (path_roundtrip (.dot (.ident "a") "b")).1 rfl

/-- Unfolding: `equalsN` on a float literal. -/
theorem equalsN_float (f : Rat) (e : Node) : (Node.float f).equalsN e = floatEqNum f e := by
  simp [Node.equalsN]

/-- Unfolding: `equalsN` on an integer literal. -/
theorem equalsN_int (i : Int) (e : Node) : (Node.int i).equalsN e = intEqNum i e := by
  simp [Node.equalsN]

/-- Unfolding: `equalsN` on a rational literal. -/
theorem equalsN_rat (r : Rat) (e : Node) : (Node.rat r).equalsN e = ratEqNum r e := by
  simp [Node.equalsN]

/-- C9: simplifying an index into a literal list (a `List` node or a
MAKE_LIST call) yields the element for an in-range index and MISSING for an
index at or past the length — but for a negative index the out-of-range
guard `offset < len` passes and the Go code panics on the slice access
(`none` in the model), instead of producing MISSING as specified.  Negative
offsets are reachable: `ParsePath("a[-1]")` parses successfully. -/
theorem index_simplify_behaviour (vals : List Constant) (txt : String)
    (args : List Node) (i : Int) :
    (0 ≤ i → i < (vals.length : Int) →
      ∃ c, vals.get? i.toNat = some c ∧
        indexSimplify (.listLit vals) i = some (constToNode c)) ∧
    ((vals.length : Int) ≤ i → indexSimplify (.listLit vals) i = some .missing) ∧
    (i < 0 → indexSimplify (.listLit vals) i = none) ∧
    (0 ≤ i → i < (args.length : Int) →
      ∃ n, args.get? i.toNat = some n ∧
        indexSimplify (.builtin .makeList txt args) i = some n) ∧
    ((args.length : Int) ≤ i → indexSimplify (.builtin .makeList txt args) i = some .missing) ∧
    (i < 0 → indexSimplify (.builtin .makeList txt args) i = none) ∧
    ParsePath "a[-1]" = .ok (.index (.ident "a") (-1)) := by
  refine ⟨?_, ?_, ?_, ?_, ?_, ?_, ?_⟩
  · intro h0 hl
    have hn : i.toNat < vals.length := by omega
    have hg : vals.get? i.toNat = some (vals.get ⟨i.toNat, hn⟩) := List.get?_eq_get hn
    refine ⟨vals.get ⟨i.toNat, hn⟩, hg, ?_⟩
    rw [show indexSimplify (.listLit vals) i = (goIndex vals i).map constToNode by
          simp [indexSimplify, hl]]
    rw [show goIndex vals i = vals.get? i.toNat by simp [goIndex, not_lt.2 h0]]
    rw [hg]
    rfl
  · intro hl
    have h : ¬ (i < (vals.length : Int)) := by omega
    simp [indexSimplify, h]
  · intro hneg
    have hl : i < (vals.length : Int) := by omega
    rw [show indexSimplify (.listLit vals) i = (goIndex vals i).map constToNode by
          simp [indexSimplify, hl]]
    simp [goIndex, hneg]
  · intro h0 hl
    have hn : i.toNat < args.length := by omega
    have hg : args.get? i.toNat = some (args.get ⟨i.toNat, hn⟩) := List.get?_eq_get hn
    refine ⟨args.get ⟨i.toNat, hn⟩, hg, ?_⟩
    rw [show indexSimplify (.builtin .makeList txt args) i = goIndex args i by
          simp [indexSimplify, hl]]
    rw [show goIndex args i = args.get? i.toNat by simp [goIndex, not_lt.2 h0]]
    exact hg
  · intro hl
    have h : ¬ (i < (args.length : Int)) := by omega
    simp [indexSimplify, h]
  · intro hneg
    have hl : i < (args.length : Int) := by omega
    rw [show indexSimplify (.builtin .makeList txt args) i = goIndex args i by
          simp [indexSimplify, hl]]
    simp [goIndex, hneg]
  · rfl

/-- Witness for `index_simplify_behaviour`: over the literal list `[7]`,
index 0 yields the element, index 2 yields MISSING, and index -1 panics. -/
theorem index_simplify_behaviour_witness :
    indexSimplify (.listLit [.int 7]) 0 = some (.int 7) ∧
    indexSimplify (.listLit [.int 7]) 2 = some .missing ∧
    indexSimplify (.listLit [.int 7]) (-1) = none := by
  have h := index_simplify_behaviour [.int 7] "" [] 0
  have h2 := index_simplify_behaviour [.int 7] "" [] 2
  have hm := index_simplify_behaviour [.int 7] "" [] (-1)
  refine ⟨?_, h2.2.1 (by decide), hm.2.2.1 (by decide)⟩
  obtain ⟨c, hc, hs⟩ := h.1 (by decide) (by decide)
  have hceq : c = .int 7 := by
    have := hc
    simp at this
    exact this.symm
  rw [hs, hceq]
  rfl

/-- C5 counterexample: `≡` is not symmetric between `Rational` and `Float`
literals: `Rational(0) ≡ Float(2⁻⁵⁷)` holds (the rational side compares
floats only approximately, `|r - f| < 1e-16`), but `Float(2⁻⁵⁷) ≡
Rational(0)` fails (the float side compares exactly).  All values involved
are exactly representable as `float64`, so the verdicts coincide with the
Go computation. -/
theorem numeric_equiv_counterexample :
    Equivalent (.rat 0) (.float (1 / 2 ^ 57)) = true ∧
    Equivalent (.float (1 / 2 ^ 57)) (.rat 0) = false := by
  constructor
  · show (Node.rat 0).equalsN (.float (1 / 2 ^ 57)) = true
    rw [equalsN_rat]
    show ratEqNum 0 (.float (1 / 2 ^ 57)) = true
    simp only [ratEqNum, ratFloatEps, decide_eq_true_eq]
    rw [abs_of_nonpos (by norm_num)]
    norm_num
  · show (Node.float (1 / 2 ^ 57)).equalsN (.rat 0) = false
    rw [equalsN_float]
    show floatEqNum (1 / 2 ^ 57) (.rat 0) = false
    simp only [floatEqNum, beq_eq_false_iff_ne, ne_eq]
    norm_num

/-- C5 (amended): `Integer(0)`, `Float(0.0)` and `Rational(0/1)` are
pairwise equivalent in both directions; `≡` restricted to `Integer` and
`Float` literals coincides with equality of the denoted rational values and
is therefore symmetric and transitive; and on pairs of `Rational` literals
`≡` is value equality.  (Symmetry and transitivity do not extend to mixed
`Rational`/`Float` pairs — see the counterexample.) -/
theorem numeric_equivalence_laws :
    (Equivalent (.int 0) (.float 0) = true ∧ Equivalent (.float 0) (.int 0) = true ∧
     Equivalent (.int 0) (.rat 0) = true ∧ Equivalent (.rat 0) (.int 0) = true ∧
     Equivalent (.float 0) (.rat 0) = true ∧ Equivalent (.rat 0) (.float 0) = true) ∧
    (∀ a b, intFloatLit a = true → intFloatLit b = true →
       (Equivalent a b = true ↔ intFloatVal a = intFloatVal b)) ∧
    (∀ a b, intFloatLit a = true → intFloatLit b = true →
       Equivalent a b = true → Equivalent b a = true) ∧
    (∀ a b c, intFloatLit a = true → intFloatLit b = true → intFloatLit c = true →
       Equivalent a b = true → Equivalent b c = true → Equivalent a c = true) ∧
    (∀ r s : Rat, Equivalent (.rat r) (.rat s) = true ↔ r = s) := by
  have hfloor : ∀ i : Int, ((i : Rat)).floor = i := by
    intro i
    rw [Rat.floor_def']
    simp
  have hceil : ∀ i : Int, ((i : Rat)).ceil = i := by
    intro i
    unfold Rat.ceil
    simp
  have hqtrunc : ∀ i : Int, qtrunc (i : Rat) = i := by
    intro i
    by_cases h : 0 ≤ (i : Rat)
    · simp [qtrunc, h, hfloor]
    · simp [qtrunc, h, hceil]
  have hchar : ∀ a b, intFloatLit a = true → intFloatLit b = true →
      (Equivalent a b = true ↔ intFloatVal a = intFloatVal b) := by
    intro a b ha hb
    have hshape : ∀ x, intFloatLit x = true →
        (∃ i, x = Node.int i) ∨ (∃ f, x = Node.float f) := by
      intro x hx
      cases x <;> first
        | exact Or.inl ⟨_, rfl⟩
        | exact Or.inr ⟨_, rfl⟩
        | exact absurd hx (by simp [intFloatLit])
    rcases hshape a ha with ⟨i, rfl⟩ | ⟨f, rfl⟩ <;>
      rcases hshape b hb with ⟨j, rfl⟩ | ⟨g, rfl⟩
    case _ =>
      show (Node.int i).equalsN (.int j) = true ↔ _
      rw [equalsN_int]
      show intEqNum i (.int j) = true ↔ _
      simp only [intEqNum, beq_iff_eq, intFloatVal, Option.some.injEq]
      constructor
      · intro h; rw [h]
      · intro h; exact_mod_cast h.symm
    case _ =>
      show (Node.int i).equalsN (.float g) = true ↔ _
      rw [equalsN_int]
      show intEqNum i (.float g) = true ↔ _
      simp only [intEqNum, Bool.and_eq_true, beq_iff_eq, intFloatVal, Option.some.injEq]
      constructor
      · rintro ⟨h1, h2⟩
        rw [← h1, h2]
      · intro h
        rw [← h, hqtrunc i]
        exact ⟨rfl, rfl⟩
    case _ =>
      show (Node.float f).equalsN (.int j) = true ↔ _
      rw [equalsN_float]
      show floatEqNum f (.int j) = true ↔ _
      simp only [floatEqNum, beq_iff_eq, intFloatVal, Option.some.injEq]
    case _ =>
      show (Node.float f).equalsN (.float g) = true ↔ _
      rw [equalsN_float]
      show floatEqNum f (.float g) = true ↔ _
      simp only [floatEqNum, beq_iff_eq, intFloatVal, Option.some.injEq]
  refine ⟨?_, hchar, ?_, ?_, ?_⟩
  · have h0 : qtrunc (0 : Rat) = 0 := by simpa using hqtrunc 0
    refine ⟨?_, ?_, ?_, ?_, ?_, ?_⟩
    · show (Node.int 0).equalsN (.float 0) = true
      rw [equalsN_int]; simp [intEqNum, h0]
    · show (Node.float 0).equalsN (.int 0) = true
      rw [equalsN_float]; simp [floatEqNum]
    · show (Node.int 0).equalsN (.rat 0) = true
      rw [equalsN_int]; simp [intEqNum]
    · show (Node.rat 0).equalsN (.int 0) = true
      rw [equalsN_rat]; simp [ratEqNum]
    · show (Node.float 0).equalsN (.rat 0) = true
      rw [equalsN_float]; simp [floatEqNum]
    · show (Node.rat 0).equalsN (.float 0) = true
      rw [equalsN_rat]
      simp only [ratEqNum, ratFloatEps, decide_eq_true_eq]
      norm_num
  · intro a b ha hb hab
    exact (hchar b a hb ha).2 ((hchar a b ha hb).1 hab).symm
  · intro a b c ha hb hc hab hbc
    exact (hchar a c ha hc).2 (((hchar a b ha hb).1 hab).trans ((hchar b c hb hc).1 hbc))
  · intro r s
    show (Node.rat r).equalsN (.rat s) = true ↔ _
    rw [equalsN_rat]
    show ratEqNum r (.rat s) = true ↔ _
    simp only [ratEqNum, beq_iff_eq]
    exact ⟨fun h => h.symm, fun h => h.symm⟩

/-- Witness for `numeric_equivalence_laws`: symmetry applied at
`Integer(3)` and `Float(3.0)`. -/
theorem numeric_equivalence_laws_witness :
    Equivalent (.float 3) (.int 3) = true := by
  refine numeric_equivalence_laws.2.2.1 (.int 3) (.float 3) rfl rfl ?_
  show (Node.int 3).equalsN (.float 3) = true
  rw [equalsN_int]; decide

/-- Re-attaching a step's own parent is the identity. -/
theorem setParent_self (s p : Step) (h : s.parent = some p) : s.setParent p = s := by
  cases s with
  | mk k d q =>
    simp only [Step.parent] at h
    simp [Step.setParent, h]

/-- A pass that reports no change returns the chain unmodified. -/
theorem passFrom_false_eq (rs : RuleSet) :
    ∀ fuel t x, passFrom rs fuel t = some (x, false) → x = t := by
  intro fuel
  induction fuel with
  | zero => intro t x h; simp [passFrom] at h
  | succ f ih =>
    intro t x h
    rw [passFrom] at h
    cases happ : fpoApply rs t with
    | intact =>
      simp only [happ] at h
      cases hp : t.parent with
      | none =>
        simp only [hp, Option.some.injEq, Prod.mk.injEq] at h
        exact h.1.symm
      | some p =>
        simp only [hp] at h
        cases hq : passFrom rs f p with
        | none => simp [hq] at h
        | some q =>
          obtain ⟨q1, q2⟩ := q
          simp only [hq, Option.map_some', Option.some.injEq, Prod.mk.injEq] at h
          obtain ⟨h1, h2⟩ := h
          have hq1 : q1 = p := ih p q1 (by rw [hq, h2])
          rw [← h1, hq1, setParent_self t p hp]
    | updated n =>
      simp only [happ] at h
      cases hq : passFrom rs f n with
      | none => simp [hq] at h
      | some q => simp [hq] at h
    | replaced n =>
      simp only [happ] at h
      cases hq : passFrom rs f n with
      | none => simp [hq] at h
      | some q => simp [hq] at h

/-- C3: the fixed-point optimizer's walk and termination discipline.
Dispatch consults exactly the rules registered for the step's kind, in
registration order, the first non-Intact result winning; an intact step
passes the walk to its parent and is re-linked in front of the rewritten
tail (the `prev` bookkeeping); `updated` restarts the walk at the same
(in-place rewritten) node and `replaced` restarts it at the replacement,
whose sub-walk result becomes the new top (or the parent of the preceding
step, via the re-linking equation); the outer loop returns exactly when a
full pass reports no change, in which case the chain is unchanged, and any
terminating run ends in such a fixed point. -/
theorem optimizer_walk_fixpoint (rs : RuleSet) :
    (∀ rs2 : RuleSet, ∀ k, rulesFor k (rs ++ rs2) = rulesFor k rs ++ rulesFor k rs2) ∧
    (∀ (pre post : List Rule) s, (∀ r ∈ pre, r s = .intact) →
       firstNonIntact (pre ++ post) s = firstNonIntact post s) ∧
    (∀ (r : Rule) (rest : List Rule) s, r s ≠ .intact →
       firstNonIntact (r :: rest) s = r s) ∧
    (∀ s, fpoApply rs s = firstNonIntact (rulesFor s.kind rs) s) ∧
    (∀ fuel s, fpoApply rs s = .intact → s.parent = none →
       passFrom rs (fuel + 1) s = some (s, false)) ∧
    (∀ fuel s p, fpoApply rs s = .intact → s.parent = some p →
       passFrom rs (fuel + 1) s =
         (passFrom rs fuel p).map (fun q => (s.setParent q.1, q.2))) ∧
    (∀ fuel s n, fpoApply rs s = .updated n →
       passFrom rs (fuel + 1) s = (passFrom rs fuel n).map (fun q => (q.1, true))) ∧
    (∀ fuel s n, fpoApply rs s = .replaced n →
       passFrom rs (fuel + 1) s = (passFrom rs fuel n).map (fun q => (q.1, true))) ∧
    (∀ fuel t x, passFrom rs fuel t = some (x, false) → x = t) ∧
    (∀ fuel t, passFrom rs (fuel + 1) t = some (t, false) →
       optimizeFuel rs (fuel + 1) t = some t) ∧
    (∀ fuel t t2, optimizeFuel rs fuel t = some t2 →
       ∃ g, passFrom rs g t2 = some (t2, false)) := by
  refine ⟨?_, ?_, ?_, fun _ => rfl, ?_, ?_, ?_, ?_, passFrom_false_eq rs, ?_, ?_⟩
  · intro rs2 k
    simp [rulesFor, List.filter_append]
  · intro pre post s hpre
    induction pre with
    | nil => rfl
    | cons r rest ih =>
      have hr : r s = .intact := hpre r (by simp)
      rw [List.cons_append, firstNonIntact, hr]
      exact ih (fun r2 h2 => hpre r2 (by simp [h2]))
  · intro r rest s hr
    rw [firstNonIntact]
    cases h : r s with
    | intact => exact absurd h hr
    | updated n => rfl
    | replaced n => rfl
  · intro fuel s h1 h2
    rw [passFrom, h1, h2]
  · intro fuel s p h1 h2
    rw [passFrom, h1, h2]
  · intro fuel s n h1
    rw [passFrom, h1]
  · intro fuel s n h1
    rw [passFrom, h1]
  · intro fuel t h
    rw [optimizeFuel, h]
  · intro fuel
    induction fuel with
    | zero => intro t t2 h; simp [optimizeFuel] at h
    | succ f ih =>
      intro t t2 h
      rw [optimizeFuel] at h
      cases hp : passFrom rs (f + 1) t with
      | none => rw [hp] at h; exact absurd h (by simp)
      | some q =>
        rw [hp] at h
        obtain ⟨x, flag⟩ := q
        cases flag with
        | false =>
          simp only [Option.some.injEq] at h
          have hx : x = t := passFrom_false_eq rs (f + 1) t x hp
          have ht : t2 = t := by rw [← h, hx]
          rw [hx] at hp
          exact ⟨f + 1, by rw [ht]; exact hp⟩
        | true => exact ih x t2 h

/-- Witness for `optimizer_walk_fixpoint`: with no registered rules a
single-step chain is already a fixed point and the optimizer returns it
unchanged after one pass. -/
theorem optimizer_walk_fixpoint_witness :
    optimizeFuel [] 1 (.mk 0 0 none) = some (.mk 0 0 none) :=
  (optimizer_walk_fixpoint []).2.2.2.2.2.2.2.2.2.1 0 (.mk 0 0 none) rfl

/-- `swapToFront` permutes its argument. -/
theorem swapToFront_perm (l : List Node) : (swapToFront l).Perm l := by
  cases l with
  | nil => simp [swapToFront]
  | cons a rest =>
    have hne : a :: rest ≠ [] := by simp
    rw [swapToFront]
    conv_rhs => rw [← List.dropLast_append_getLast hne]
    have := @List.perm_middle Node ((a :: rest).getLast hne) ((a :: rest).dropLast)
      ([] : List Node)
    simpa using this.symm

/-- Swap-removal at index `j` removes exactly the element at `j`, up to
permutation. -/
theorem swapRemove_perm (l : List Node) (j : Nat) (h : j < l.length) :
    l.Perm (l.get ⟨j, h⟩ :: swapRemove l j) := by
  have hne : l ≠ [] := by
    intro e; subst e; simp at h
  have hlast : l.getLast? = some (l.getLast hne) := List.getLast?_eq_getLast l hne
  have hsw : swapRemove l j = (l.set j (l.getLast hne)).dropLast := by
    simp [swapRemove, hlast]
  rw [hsw]
  rw [List.set_eq_take_append_cons_drop, if_pos h]
  by_cases hj : j + 1 < l.length
  · -- mid-list removal: the dropped tail is nonempty
    have hD : l.drop (j + 1) ≠ [] := by
      intro e
      have := List.drop_eq_nil_iff_le.1 e
      omega
    rw [List.dropLast_append_of_ne_nil _ (by
      intro e
      exact hD (by simpa using congrArg List.tail e))]
    rw [List.dropLast_cons_of_ne_nil hD]
    have hlD : l.getLast hne = (l.drop (j + 1)).getLast hD := by
      have h1 : l.getLast? = (l.drop (j + 1)).getLast? := by
        conv_lhs => rw [← List.take_append_drop (j + 1) l]
        exact List.getLast?_append_of_ne_nil _ hD
      rw [hlast, List.getLast?_eq_getLast _ hD] at h1
      exact Option.some.inj h1
    conv_lhs => rw [← List.take_append_drop j l]
    rw [List.drop_eq_get_cons h]
    refine (List.perm_middle).trans ?_
    refine List.Perm.cons _ ?_
    refine List.Perm.append_left _ ?_
    have hperm : (l.drop (j + 1)).Perm
        ((l.drop (j + 1)).getLast hD :: (l.drop (j + 1)).dropLast) := by
      conv_lhs => rw [← List.dropLast_append_getLast hD]
      have := @List.perm_middle Node ((l.drop (j + 1)).getLast hD)
        ((l.drop (j + 1)).dropLast) ([] : List Node)
      simpa using this
    simp only [hlD]
    exact hperm
  · -- removal of the final element
    have hj1 : j + 1 = l.length := by omega
    have hD : l.drop (j + 1) = [] := by
      rw [List.drop_eq_nil_iff_le]; omega
    rw [hD]
    rw [List.dropLast_concat]
    have hlastget : l.getLast hne = l.get ⟨j, h⟩ := by
      rw [List.getLast_eq_get]
      congr 1
      apply Fin.ext
      show l.length - 1 = j
      omega
    conv_lhs => rw [← List.take_append_drop j l]
    rw [List.drop_eq_get_cons h, hD]
    have := @List.perm_middle Node (l.get ⟨j, h⟩) (l.take j) ([] : List Node)
    simpa using this

/-- `sharedIn` only depends on the membership of the candidate list. -/
theorem sharedIn_perm {l1 l2 : List Node} (h : l1.Perm l2) (v : Node) :
    sharedIn l1 v = sharedIn l2 v := by
  rw [sharedIn, sharedIn]
  cases h1 : l1.any (fun y => Equivalent y v) with
  | true =>
    rw [List.any_eq_true] at h1
    obtain ⟨a, ha, hp⟩ := h1
    exact ((List.any_eq_true).2 ⟨a, h.mem_iff.1 ha, hp⟩).symm
  | false =>
    cases h2 : l2.any (fun y => Equivalent y v) with
    | false => rfl
    | true =>
      rw [List.any_eq_true] at h2
      obtain ⟨a, ha, hp⟩ := h2
      rw [List.any_eq_false] at h1
      exact absurd hp (by simpa using h1 a (h.mem_iff.2 ha))

/-- `sharedIn` against an empty other side is false. -/
theorem sharedIn_nil (v : Node) : sharedIn [] v = false := rfl

/-- `sharedIn` unfolds over a cons cell. -/
theorem sharedIn_cons (a : Node) (l : List Node) (v : Node) :
    sharedIn (a :: l) v = (Equivalent a v || sharedIn l v) := by
  simp [sharedIn]

/-- Filtering by `sharedIn []` removes everything. -/
theorem filter_sharedIn_nil (l : List Node) : l.filter (sharedIn []) = [] := by
  induction l with
  | nil => rfl
  | cons a t iht =>
    rw [List.filter_cons_of_neg (by simp [sharedIn])]
    exact iht

/-- `NonEquiv` is symmetric. -/
theorem nonEquiv_symm {a b : Node} (h : NonEquiv a b) : NonEquiv b a :=
  And.intro h.2 h.1

/-- Full behaviour of the matching loop of `mergeFilterHint`, assuming the
`Equivalent` relation is symmetric and transitive on the conjuncts involved
and each side is duplicate-free up to equivalence: the loop succeeds exactly
when every unshared conjunct on either side is removable, and on success it
appends to the accumulator a permutation of the x-conjuncts that are shared
with the y-side. -/
theorem hintLoop_spec (U : List Node)
    (Hsymm : ∀ a ∈ U, ∀ b ∈ U, Equivalent a b = true → Equivalent b a = true)
    (Htrans : ∀ a ∈ U, ∀ b ∈ U, ∀ c ∈ U, Equivalent a b = true → Equivalent b c = true →
      Equivalent a c = true) :
    ∀ xs ys ovl : List Node, (∀ a ∈ xs, a ∈ U) → (∀ a ∈ ys, a ∈ U) →
    xs.Pairwise NonEquiv → ys.Pairwise NonEquiv →
    (((∃ res, hintLoop xs ys ovl = some res) ↔
        (removableUnshared xs ys ∧ removableUnshared ys xs)) ∧
      (∀ res, hintLoop xs ys ovl = some res →
        ∃ sh, res = ovl ++ sh ∧ sh.Perm (xs.filter (sharedIn ys)))) := by
  intro xs ys ovl
  induction xs, ys, ovl using hintLoop.induct with
  | case1 ys ovl hall =>
    intro _ _ _ _
    have heq : hintLoop [] ys ovl = some ovl := by simp [hintLoop, hall]
    constructor
    · constructor
      · intro _
        refine ⟨?_, ?_⟩
        · intro u hu; simp at hu
        · intro w hw _
          exact List.all_eq_true.1 hall w hw
      · intro _; exact ⟨ovl, heq⟩
    · intro res hres
      rw [heq] at hres
      have hre : ovl = res := Option.some.inj hres
      exact ⟨[], by simp [← hre], by simp⟩
  | case2 ys ovl hall =>
    intro _ _ _ _
    have heq : hintLoop [] ys ovl = none := by simp [hintLoop, hall]
    constructor
    · constructor
      · rintro ⟨res, hres⟩
        rw [heq] at hres
        exact Option.noConfusion hres
      · rintro ⟨_, hB⟩
        exact absurd (List.all_eq_true.2 fun w hw => hB w hw (sharedIn_nil w)) hall
    · intro res hres
      rw [heq] at hres
      exact Option.noConfusion hres
  | case3 v rest ovl hall =>
    intro _ _ _ _
    have heq : hintLoop (v :: rest) [] ovl = some ovl := by simp [hintLoop, hall]
    constructor
    · constructor
      · intro _
        refine ⟨?_, ?_⟩
        · intro u hu _
          exact List.all_eq_true.1 hall u hu
        · intro w hw; simp at hw
      · intro _; exact ⟨ovl, heq⟩
    · intro res hres
      rw [heq] at hres
      have hre : ovl = res := Option.some.inj hres
      exact ⟨[], by simp [← hre], by simp [filter_sharedIn_nil]⟩
  | case4 v rest ovl hall =>
    intro _ _ _ _
    have heq : hintLoop (v :: rest) [] ovl = none := by simp [hintLoop, hall]
    constructor
    · constructor
      · rintro ⟨res, hres⟩
        rw [heq] at hres
        exact Option.noConfusion hres
      · rintro ⟨hA, _⟩
        exact absurd (List.all_eq_true.2 fun u hu => hA u hu (sharedIn_nil u)) hall
    · intro res hres
      rw [heq] at hres
      exact Option.noConfusion hres
  | case5 v rest yh yt ovl j hfind ih =>
    intro hxU hyU hxP hyP
    obtain ⟨hj, hyv0, -⟩ := List.findIdx?_eq_some_iff_getElem.1 hfind
    have hvU : v ∈ U := hxU v (List.mem_cons_self v rest)
    have hy0v : Equivalent ((yh :: yt).get ⟨j, hj⟩) v = true := by
      simpa [List.get_eq_getElem] using hyv0
    have hy0ys : (yh :: yt).get ⟨j, hj⟩ ∈ yh :: yt := List.get_mem _ _ _
    have hy0U : (yh :: yt).get ⟨j, hj⟩ ∈ U := hyU _ hy0ys
    have hyperm : (yh :: yt).Perm ((yh :: yt).get ⟨j, hj⟩ :: swapRemove (yh :: yt) j) :=
      swapRemove_perm (yh :: yt) j hj
    have hxperm : (swapToFront rest).Perm rest := swapToFront_perm rest
    have hswU : ∀ a ∈ swapToFront rest, a ∈ U :=
      fun a ha => hxU a (List.mem_cons_of_mem v (hxperm.mem_iff.1 ha))
    have hsrU : ∀ a ∈ swapRemove (yh :: yt) j, a ∈ U :=
      fun a ha => hyU a (hyperm.mem_iff.2 (List.mem_cons_of_mem _ ha))
    have hswP : (swapToFront rest).Pairwise NonEquiv :=
      (List.Perm.pairwise_iff (fun hpq => nonEquiv_symm hpq) hxperm).2 hxP.of_cons
    have hyP2 : ((yh :: yt).get ⟨j, hj⟩ :: swapRemove (yh :: yt) j).Pairwise NonEquiv :=
      (List.Perm.pairwise_iff (fun hpq => nonEquiv_symm hpq) hyperm).1 hyP
    have hsrP : (swapRemove (yh :: yt) j).Pairwise NonEquiv := hyP2.of_cons
    have hvrest : ∀ u ∈ rest, NonEquiv v u := (List.pairwise_cons.1 hxP).1
    have hy0sw : ∀ w ∈ swapRemove (yh :: yt) j, NonEquiv ((yh :: yt).get ⟨j, hj⟩) w :=
      (List.pairwise_cons.1 hyP2).1
    have hvy0 : Equivalent v ((yh :: yt).get ⟨j, hj⟩) = true := Hsymm _ hy0U v hvU hy0v
    have K1 : ∀ u ∈ rest, sharedIn (swapRemove (yh :: yt) j) u = sharedIn (yh :: yt) u := by
      intro u hu
      have huU : u ∈ U := hxU u (List.mem_cons_of_mem v hu)
      have hy0u : Equivalent ((yh :: yt).get ⟨j, hj⟩) u = false := by
        cases he : Equivalent ((yh :: yt).get ⟨j, hj⟩) u with
        | false => rfl
        | true =>
          exact absurd (Htrans v hvU _ hy0U u huU hvy0 he) (hvrest u hu).1
      rw [sharedIn_perm hyperm u, sharedIn_cons, hy0u]
      simp
    have K2 : ∀ w ∈ swapRemove (yh :: yt) j, Equivalent v w = false := by
      intro w hw
      cases he : Equivalent v w with
      | false => rfl
      | true =>
        exact absurd (Htrans _ hy0U v hvU w (hsrU w hw) hy0v he) (hy0sw w hw).1
    have K3 : sharedIn (yh :: yt) v = true := by
      rw [sharedIn, List.any_eq_true]
      exact ⟨_, hy0ys, hy0v⟩
    have K4 : sharedIn (v :: rest) ((yh :: yt).get ⟨j, hj⟩) = true := by
      rw [sharedIn_cons, hvy0]
      simp
    have heq : hintLoop (v :: rest) (yh :: yt) ovl
        = hintLoop (swapToFront rest) (swapRemove (yh :: yt) j) (ovl ++ [v]) := by
      simp [hintLoop, hfind]
    obtain ⟨ihIff, ihOvl⟩ := ih hswU hsrU hswP hsrP
    have EA : removableUnshared (v :: rest) (yh :: yt) ↔
        removableUnshared (swapToFront rest) (swapRemove (yh :: yt) j) := by
      constructor
      · intro hA u hu hsh
        have hu2 : u ∈ rest := hxperm.mem_iff.1 hu
        refine hA u (List.mem_cons_of_mem v hu2) ?_
        rw [← K1 u hu2]
        exact hsh
      · intro hA u hu hsh
        rcases List.mem_cons.1 hu with rfl | hu2
        · exact absurd hsh (by simp [K3])
        · refine hA u (hxperm.mem_iff.2 hu2) ?_
          rw [K1 u hu2]
          exact hsh
    have EB : removableUnshared (yh :: yt) (v :: rest) ↔
        removableUnshared (swapRemove (yh :: yt) j) (swapToFront rest) := by
      have hshr : ∀ w ∈ swapRemove (yh :: yt) j,
          sharedIn (v :: rest) w = sharedIn (swapToFront rest) w := by
        intro w hw
        rw [sharedIn_cons, K2 w hw, Bool.false_or, ← sharedIn_perm hxperm w]
      constructor
      · intro hB w hw hsh
        refine hB w (hyperm.mem_iff.2 (List.mem_cons_of_mem _ hw)) ?_
        rw [hshr w hw]
        exact hsh
      · intro hB w hw hsh
        rcases List.mem_cons.1 (hyperm.mem_iff.1 hw) with he | hw2
        · rw [he] at hsh
          rw [K4] at hsh
          exact Bool.noConfusion hsh
        · refine hB w hw2 ?_
          rw [← hshr w hw2]
          exact hsh
    constructor
    · rw [heq, ihIff]
      exact (and_congr EA EB).symm
    · intro res hres
      rw [heq] at hres
      obtain ⟨sh2, hres2, hperm2⟩ := ihOvl res hres
      refine ⟨v :: sh2, by simp [hres2], ?_⟩
      rw [List.filter_cons_of_pos K3]
      refine List.Perm.cons v ?_
      have h1 : ((swapToFront rest).filter (sharedIn (swapRemove (yh :: yt) j))).Perm
          (rest.filter (sharedIn (swapRemove (yh :: yt) j))) :=
        List.Perm.filter _ hxperm
      have h2 : rest.filter (sharedIn (swapRemove (yh :: yt) j))
          = rest.filter (sharedIn (yh :: yt)) := List.filter_congr K1
      rw [h2] at h1
      exact hperm2.trans h1
  | case6 v rest yh yt ovl hfind hcanv ih =>
    intro hxU hyU hxP hyP
    have hvU : v ∈ U := hxU v (List.mem_cons_self v rest)
    have hnone : ∀ w ∈ yh :: yt, Equivalent w v = false := by
      intro w hw
      simpa using List.findIdx?_eq_none_iff.1 hfind w hw
    have hshv : sharedIn (yh :: yt) v = false := by
      rw [sharedIn, List.any_eq_false]
      intro w hw
      simp [hnone w hw]
    have K2 : ∀ w ∈ yh :: yt, Equivalent v w = false := by
      intro w hw
      cases he : Equivalent v w with
      | false => rfl
      | true =>
        have h1 := Hsymm v hvU w (hyU w hw) he
        rw [hnone w hw] at h1
        exact Bool.noConfusion h1
    have heq : hintLoop (v :: rest) (yh :: yt) ovl = hintLoop rest (yh :: yt) ovl := by
      simp [hintLoop, hfind, hcanv]
    obtain ⟨ihIff, ihOvl⟩ :=
      ih (fun a ha => hxU a (List.mem_cons_of_mem v ha)) hyU hxP.of_cons hyP
    have EA : removableUnshared (v :: rest) (yh :: yt) ↔
        removableUnshared rest (yh :: yt) := by
      constructor
      · intro hA u hu hsh
        exact hA u (List.mem_cons_of_mem v hu) hsh
      · intro hA u hu hsh
        rcases List.mem_cons.1 hu with rfl | hu2
        · exact hcanv
        · exact hA u hu2 hsh
    have EB : removableUnshared (yh :: yt) (v :: rest) ↔
        removableUnshared (yh :: yt) rest := by
      have hsh : ∀ w ∈ yh :: yt, sharedIn (v :: rest) w = sharedIn rest w := by
        intro w hw
        rw [sharedIn_cons, K2 w hw, Bool.false_or]
      constructor
      · intro hB w hw hs
        refine hB w hw ?_
        rw [hsh w hw]
        exact hs
      · intro hB w hw hs
        refine hB w hw ?_
        rw [← hsh w hw]
        exact hs
    constructor
    · rw [heq, ihIff]
      exact (and_congr EA EB).symm
    · intro res hres
      rw [heq] at hres
      obtain ⟨sh2, hres2, hperm2⟩ := ihOvl res hres
      refine ⟨sh2, hres2, ?_⟩
      rw [List.filter_cons_of_neg (by simp [hshv])]
      exact hperm2
  | case7 v rest yh yt ovl hfind hcanv =>
    intro hxU hyU hxP hyP
    have heq : hintLoop (v :: rest) (yh :: yt) ovl = none := by
      simp [hintLoop, hfind, hcanv]
    have hshv : sharedIn (yh :: yt) v = false := by
      rw [sharedIn, List.any_eq_false]
      intro w hw
      simpa using List.findIdx?_eq_none_iff.1 hfind w hw
    constructor
    · constructor
      · rintro ⟨res, hres⟩
        rw [heq] at hres
        exact Option.noConfusion hres
      · rintro ⟨hA, _⟩
        exact absurd (hA v (List.mem_cons_self v rest) hshv) hcanv
    · intro res hres
      rw [heq] at hres
      exact Option.noConfusion hres

/-- C1: Two leaf inputs are merged into one input slot iff their table
expressions are structurally equal and every top-level AND-conjunct of
either filter hint that is not shared (up to expression equivalence) with
the other side is safely removable; on success the merged filter hint is
the conjunction of the shared conjuncts (absent when there are none, and a
permutation of the shared x-conjuncts in general) and the deduplicating
walker replaces the slot with the merged input, while on failure the walker
keeps both inputs as separate slots.  Stated under the hypotheses that
`Equivalent` is symmetric and transitive on the conjuncts involved and that
each side's conjunct list is duplicate-free up to equivalence. -/
theorem input_merge_spec (x y : Input)
    (Hsymm : ∀ a ∈ filterConj x.hints.filter ++ filterConj y.hints.filter,
      ∀ b ∈ filterConj x.hints.filter ++ filterConj y.hints.filter,
      Equivalent a b = true → Equivalent b a = true)
    (Htrans : ∀ a ∈ filterConj x.hints.filter ++ filterConj y.hints.filter,
      ∀ b ∈ filterConj x.hints.filter ++ filterConj y.hints.filter,
      ∀ c ∈ filterConj x.hints.filter ++ filterConj y.hints.filter,
      Equivalent a b = true → Equivalent b c = true → Equivalent a c = true)
    (hxP : (filterConj x.hints.filter).Pairwise NonEquiv)
    (hyP : (filterConj y.hints.filter).Pairwise NonEquiv) :
    ((∃ m, x.merge y = some m) ↔
      (x.table.equalsN y.table = true ∧
        removableUnshared (filterConj x.hints.filter) (filterConj y.hints.filter) ∧
        removableUnshared (filterConj y.hints.filter) (filterConj x.hints.filter))) ∧
    (∀ m, x.merge y = some m →
      m.table = x.table ∧
      ∃ sh, sh.Perm ((filterConj x.hints.filter).filter
          (sharedIn (filterConj y.hints.filter))) ∧
        m.hints.filter = conjoin sh) ∧
    (x.merge y = none → Walker.put ⟨[x], -1⟩ y = ⟨[x, y], 1⟩) ∧
    (∀ m, x.merge y = some m → Walker.put ⟨[x], -1⟩ y = ⟨[m], 0⟩) := by
  obtain ⟨hiff, hovl⟩ := hintLoop_spec
    (filterConj x.hints.filter ++ filterConj y.hints.filter) Hsymm Htrans
    (filterConj x.hints.filter) (filterConj y.hints.filter) []
    (fun a ha => List.mem_append_left _ ha)
    (fun a ha => List.mem_append_right _ ha) hxP hyP
  have hput_none : x.merge y = none → Walker.put ⟨[x], -1⟩ y = ⟨[x, y], 1⟩ := by
    intro hm
    simp [Walker.put, putLoop, hm]
  have hput_some : ∀ m, x.merge y = some m → Walker.put ⟨[x], -1⟩ y = ⟨[m], 0⟩ := by
    intro m hm
    simp [Walker.put, putLoop, hm]
  cases htab : x.table.equalsN y.table with
  | false =>
    have hm : x.merge y = none := by
      simp [Input.merge, htab]
    refine ⟨?_, ?_, hput_none, hput_some⟩
    · constructor
      · rintro ⟨m, hm2⟩
        rw [hm] at hm2
        exact Option.noConfusion hm2
      · rintro ⟨h1, -⟩
        exact Bool.noConfusion h1
    · intro m hm2
      rw [hm] at hm2
      exact Option.noConfusion hm2
  | true =>
    cases hres : hintLoop (filterConj x.hints.filter) (filterConj y.hints.filter) [] with
    | none =>
      have hm : x.merge y = none := by
        simp [Input.merge, htab, mergeFilterHint, hres]
      refine ⟨?_, ?_, hput_none, hput_some⟩
      · constructor
        · rintro ⟨m, hm2⟩
          rw [hm] at hm2
          exact Option.noConfusion hm2
        · rintro ⟨-, hAB⟩
          obtain ⟨res, hres2⟩ := hiff.2 hAB
          rw [hres] at hres2
          exact Option.noConfusion hres2
      · intro m hm2
        rw [hm] at hm2
        exact Option.noConfusion hm2
    | some overlap =>
      have hmf : mergeFilterHint x y
          = some { x with hints := { x.hints with filter := conjoin overlap } } := by
        simp [mergeFilterHint, hres]
      have hchar : ∀ m, x.merge y = some m →
          m.table = x.table ∧ m.hints.filter = conjoin overlap := by
        intro m hm
        simp only [Input.merge, htab, Bool.not_true, Bool.false_eq_true, if_false, hmf] at hm
        split at hm
        · obtain rfl := Option.some.inj hm
          exact ⟨rfl, rfl⟩
        · split at hm
          · obtain rfl := Option.some.inj hm
            exact ⟨rfl, rfl⟩
          · obtain rfl := Option.some.inj hm
            exact ⟨rfl, rfl⟩
      have hmsome : ∃ m, x.merge y = some m := by
        simp only [Input.merge, htab, Bool.not_true, Bool.false_eq_true, if_false, hmf]
        split
        · exact ⟨_, rfl⟩
        · split
          · exact ⟨_, rfl⟩
          · exact ⟨_, rfl⟩
      refine ⟨?_, ?_, hput_none, hput_some⟩
      · constructor
        · intro _
          exact ⟨rfl, hiff.1 ⟨overlap, hres⟩⟩
        · intro _
          exact hmsome
      · intro m hm
        obtain ⟨ht, hf⟩ := hchar m hm
        obtain ⟨sh, hsh, hperm⟩ := hovl overlap hres
        refine ⟨ht, sh, hperm, ?_⟩
        rw [hf, hsh, List.nil_append]

/-- Witness for `input_merge_spec`: two occurrences of the same table with
no filter hints merge into a single slot whose filter hint is absent. -/
theorem input_merge_spec_witness :
    ∃ m, Input.merge ⟨.ident "t", ⟨none, [], false⟩, none⟩
        ⟨.ident "t", ⟨none, [], false⟩, none⟩ = some m ∧ m.hints.filter = none := by
  have h := input_merge_spec ⟨.ident "t", ⟨none, [], false⟩, none⟩
      ⟨.ident "t", ⟨none, [], false⟩, none⟩
      (by intro a ha; simp [filterConj] at ha)
      (by intro a ha; simp [filterConj] at ha)
      List.Pairwise.nil
      List.Pairwise.nil
  have htab : (Node.ident "t").equalsN (.ident "t") = true := by
    rw [equalsN_ident]
    decide
  obtain ⟨m, hm⟩ := h.1.mpr
    ⟨htab, fun v hv => absurd hv (by simp [filterConj]),
      fun v hv => absurd hv (by simp [filterConj])⟩
  obtain ⟨-, sh, hperm, hf⟩ := h.2.1 m hm
  have hsh0 : sh = [] := List.Perm.eq_nil hperm
  exact ⟨m, hm, by rw [hf, hsh0]; rfl⟩

/-! ### Unfolding lemmas for `equalsN` (the mutual definition is compiled by
well-founded recursion, so these equations are established once by `simp`
and reused wherever a variant pair must be evaluated). -/

theorem equalsN_bool (a b : Bool) : (Node.bool a).equalsN (.bool b) = (a == b) := by
  simp [Node.equalsN]

theorem equalsN_str (a b : String) : (Node.str a).equalsN (.str b) = (a == b) := by
  simp [Node.equalsN]

theorem equalsN_star : (Node.star).equalsN .star = true := by
  simp [Node.equalsN]

theorem equalsN_missing : (Node.missing).equalsN .missing = true := by
  simp [Node.equalsN]

theorem equalsN_null : (Node.null).equalsN .null = true := by
  simp [Node.equalsN]

theorem equalsN_timestamp (a b : Int) :
    (Node.timestamp a).equalsN (.timestamp b) = (a == b) := by
  simp [Node.equalsN]

theorem equalsN_index (i : Node) (o : Int) (j : Node) (p : Int) :
    (Node.index i o).equalsN (.index j p) = (o == p && i.equalsN j) := by
  simp [Node.equalsN]

theorem equalsN_member (a : Node) (s : List Datum) (b : Node) (t : List Datum) :
    (Node.member a s).equalsN (.member b t)
      = (s.length == t.length && a.equalsN b && datumListBeq s t) := by
  simp [Node.equalsN]

theorem equalsN_lookup (x : Node) (el : Option Node) (k v : List Datum)
    (x2 : Node) (el2 : Option Node) (k2 v2 : List Datum) :
    (Node.lookup x el k v).equalsN (.lookup x2 el2 k2 v2)
      = (x.equalsN x2 && optNodeEquiv el el2 && datumListBeq k k2 && datumListBeq v v2) := by
  simp [Node.equalsN]

theorem equalsN_cmp (op : CmpOp) (l r : Node) (op2 : CmpOp) (l2 r2 : Node) :
    (Node.cmp op l r).equalsN (.cmp op2 l2 r2)
      = (op == op2 && l.equalsN l2 && r.equalsN r2) := by
  simp [Node.equalsN]

theorem equalsN_stringMatch (op : StringMatchOp) (x : Node) (p esc : String)
    (op2 : StringMatchOp) (x2 : Node) (p2 esc2 : String) :
    (Node.stringMatch op x p esc).equalsN (.stringMatch op2 x2 p2 esc2)
      = (op == op2 && x.equalsN x2 && p == p2 && esc == esc2) := by
  simp [Node.equalsN]

theorem equalsN_not (x x2 : Node) : (Node.not x).equalsN (.not x2) = x.equalsN x2 := by
  simp [Node.equalsN]

theorem equalsN_logical (op : LogicalOp) (l r : Node) (op2 : LogicalOp) (l2 r2 : Node) :
    (Node.logical op l r).equalsN (.logical op2 l2 r2)
      = (op == op2 && l.equalsN l2 && r.equalsN r2) := by
  simp [Node.equalsN]

theorem equalsN_builtin (fn : BuiltinOp) (text : String) (args : List Node)
    (fn2 : BuiltinOp) (text2 : String) (args2 : List Node) :
    (Node.builtin fn text args).equalsN (.builtin fn2 text2 args2)
      = (fn == fn2 && args.length == args2.length && nodeListEquals args args2) := by
  simp [Node.equalsN]

theorem equalsN_unaryArith (op : UnaryArithOp) (c : Node) (op2 : UnaryArithOp) (c2 : Node) :
    (Node.unaryArith op c).equalsN (.unaryArith op2 c2)
      = (op == op2 && c.equalsN c2) := by
  simp [Node.equalsN]

theorem equalsN_arith (op : ArithOp) (l r : Node) (op2 : ArithOp) (l2 r2 : Node) :
    (Node.arith op l r).equalsN (.arith op2 l2 r2)
      = (op == op2 && l.equalsN l2 && r.equalsN r2) := by
  simp [Node.equalsN]

theorem equalsN_appended (vs vs2 : List Node) :
    (Node.appended vs).equalsN (.appended vs2)
      = (vs.length == vs2.length && nodeListEquals vs vs2) := by
  simp [Node.equalsN]

theorem equalsN_isKey (x : Node) (k : Keyword) (x2 : Node) (k2 : Keyword) :
    (Node.isKey x k).equalsN (.isKey x2 k2) = (k == k2 && x.equalsN x2) := by
  simp [Node.equalsN]

theorem equalsN_caseExpr (limbs : List (Node × Node)) (els : Option Node) (v : String)
    (limbs2 : List (Node × Node)) (els2 : Option Node) (v2 : String) :
    (Node.caseExpr limbs els v).equalsN (.caseExpr limbs2 els2 v2)
      = (limbs.length == limbs2.length && els.isSome == els2.isSome &&
         limbListEquals limbs limbs2 &&
         (match els, els2 with
          | some a, some b => a.equalsN b
          | _, _ => true)) := by
  cases els <;> cases els2 <;> simp [Node.equalsN]

theorem equalsN_cast (x : Node) (t : Int) (x2 : Node) (t2 : Int) :
    (Node.cast x t).equalsN (.cast x2 t2) = (t == t2 && x.equalsN x2) := by
  simp [Node.equalsN]

theorem equalsN_structLit (fs fs2 : List (String × Constant)) :
    (Node.structLit fs).equalsN (.structLit fs2)
      = (fs.length == fs2.length && constFieldsEquals fs fs2) := by
  simp [Node.equalsN]

theorem equalsN_listLit (vs vs2 : List Constant) :
    (Node.listLit vs).equalsN (.listLit vs2)
      = (vs.length == vs2.length && constListEquals vs vs2) := by
  simp [Node.equalsN]

theorem equalsN_unpivot (t : Node) (a b : Option String)
    (t2 : Node) (a2 b2 : Option String) :
    (Node.unpivot t a b).equalsN (.unpivot t2 a2 b2)
      = (a == a2 && b == b2 && t.equalsN t2) := by
  simp [Node.equalsN]

theorem equalsN_union (ty : UnionType) (l r : Node) (ty2 : UnionType) (l2 r2 : Node) :
    (Node.union ty l r).equalsN (.union ty2 l2 r2)
      = (ty == ty2 && l.equalsN l2 && r.equalsN r2) := by
  simp [Node.equalsN]

theorem equalsN_aggregate (op : AggregateOp) (prec : Nat) (inner : Option Node)
    (over : Option (List Node × List (Node × Bool × Bool))) (filter : Option Node)
    (op2 : AggregateOp) (prec2 : Nat) (inner2 : Option Node)
    (over2 : Option (List Node × List (Node × Bool × Bool))) (filter2 : Option Node) :
    (Node.aggregate op prec inner over filter).equalsN
        (.aggregate op2 prec2 inner2 over2 filter2)
      = (op == op2 && inner.isSome == inner2.isSome &&
         (match inner, inner2 with
          | some a, some b => a.equalsN b
          | _, _ => true) &&
         prec == prec2 &&
         filter.isSome == filter2.isSome &&
         (match filter, filter2 with
          | some a, some b => a.equalsN b
          | _, _ => true) &&
         (match over, over2 with
          | none, o2 => o2.isNone
          | some (pb, ob), some (pb2, ob2) =>
            pb.length == pb2.length && nodeListEquals pb pb2 &&
            ob.length == ob2.length && orderListEquals ob ob2
          | some _, none => false)) := by
  rcases over with - | ⟨pb, ob⟩ <;> rcases over2 with - | ⟨pb2, ob2⟩ <;>
    cases inner <;> cases inner2 <;> cases filter <;> cases filter2 <;>
    simp [Node.equalsN]

/-! ### Reflexivity of datum equality, constant codec round trip, enum code
round trips: the supporting facts of the AST round-trip theorem. -/

mutual
/-- `ion.Datum.Equal` is reflexive. -/
theorem datumBeq_refl (d : Datum) : d.beq d = true := by
  match d with
  | .null => simp [Datum.beq]
  | .bool b => simp [Datum.beq]
  | .int i => simp [Datum.beq]
  | .float f => simp [Datum.beq]
  | .string s => simp [Datum.beq]
  | .symbol s => simp [Datum.beq]
  | .blob r => simp [Datum.beq]
  | .timestamp t => simp [Datum.beq]
  | .list ds => simp [Datum.beq, datumListBeq_refl ds]
  | .struct fs => simp [Datum.beq, datumFieldsBeq_refl fs]

theorem datumListBeq_refl (ds : List Datum) : datumListBeq ds ds = true := by
  match ds with
  | [] => simp [datumListBeq]
  | d :: rest => simp [datumListBeq, datumBeq_refl d, datumListBeq_refl rest]

theorem datumFieldsBeq_refl (fs : List (String × Datum)) : datumFieldsBeq fs fs = true := by
  match fs with
  | [] => simp [datumFieldsBeq]
  | (l, d) :: rest => simp [datumFieldsBeq, datumBeq_refl d, datumFieldsBeq_refl rest]
end

mutual
/-- `AsConstant` inverts `Constant.Datum()` up to `Equals`: the datum of a
constant is again a constant, equal to the original (a rational with unit
denominator comes back as the equal integer, any other rational as the equal
float in the exact-value model). -/
theorem constDatum_roundtrip (c : Constant) :
    ∃ c2, asConstant (constDatum c) = some c2 ∧ constEquals c2 c = true := by
  match c with
  | .str s => exact ⟨.str s, by simp [constDatum, asConstant], by simp [constEquals]⟩
  | .int i => exact ⟨.int i, by simp [constDatum, asConstant], by simp [constEquals, intEqNumC]⟩
  | .float f =>
    exact ⟨.float f, by simp [constDatum, asConstant], by simp [constEquals, floatEqNumC]⟩
  | .bool b => exact ⟨.bool b, by simp [constDatum, asConstant], by simp [constEquals]⟩
  | .timestamp t =>
    exact ⟨.timestamp t, by simp [constDatum, asConstant], by simp [constEquals]⟩
  | .null => exact ⟨.null, by simp [constDatum, asConstant], by simp [constEquals]⟩
  | .rat r =>
    by_cases hden : r.den = 1
    · exact ⟨.int r.num, by simp [constDatum, hden, asConstant],
        by simp [constEquals, intEqNumC, hden]⟩
    · exact ⟨.float r, by simp [constDatum, hden, asConstant],
        by simp [constEquals, floatEqNumC]⟩
  | .structC fs =>
    obtain ⟨fs2, h1, h2, h3⟩ := constDatumFields_roundtrip fs
    exact ⟨.structC fs2, by simp [constDatum, asConstant, h1],
      by simp [constEquals, h2, h3]⟩
  | .listC vs =>
    obtain ⟨vs2, h1, h2, h3⟩ := constDatumList_roundtrip vs
    exact ⟨.listC vs2, by simp [constDatum, asConstant, h1],
      by simp [constEquals, h2, h3]⟩

theorem constDatumFields_roundtrip (fs : List (String × Constant)) :
    ∃ fs2, asConstantFields (constDatumFields fs) = some fs2 ∧
      fs2.length = fs.length ∧ constFieldsEquals fs2 fs = true := by
  match fs with
  | [] => exact ⟨[], by simp [constDatumFields, asConstantFields], rfl,
      by simp [constFieldsEquals]⟩
  | (l, c) :: rest =>
    obtain ⟨c2, hc1, hc2⟩ := constDatum_roundtrip c
    obtain ⟨fs2, h1, h2, h3⟩ := constDatumFields_roundtrip rest
    exact ⟨(l, c2) :: fs2,
      by simp [constDatumFields, asConstantFields, hc1, h1],
      by simp [h2],
      by simp [constFieldsEquals, hc2, h3]⟩

theorem constDatumList_roundtrip (vs : List Constant) :
    ∃ vs2, asConstantList (constDatumList vs) = some vs2 ∧
      vs2.length = vs.length ∧ constListEquals vs2 vs = true := by
  match vs with
  | [] => exact ⟨[], by simp [constDatumList, asConstantList], rfl,
      by simp [constListEquals]⟩
  | c :: rest =>
    obtain ⟨c2, hc1, hc2⟩ := constDatum_roundtrip c
    obtain ⟨vs2, h1, h2, h3⟩ := constDatumList_roundtrip rest
    exact ⟨c2 :: vs2,
      by simp [constDatumList, asConstantList, hc1, h1],
      by simp [h2],
      by simp [constListEquals, hc2, h3]⟩
end

/-- The comparison/arithmetic/keyword enum codes written by the encoder are
decoded back to the same enum value. -/
theorem fUint_int_nonneg (i : Int) (h : 0 ≤ i) : fUint (.int i) = .ok i.toNat := by
  simp [fUint, h]

theorem cmpOp_code_roundtrip (op : CmpOp) :
    fUint (.int op.code) = .ok op.code.toNat ∧
    op.code ⊔ 0 = op.code ∧
    cmpOpOfCode op.code = some op := by
  cases op <;> exact ⟨rfl, by decide, rfl⟩

theorem logicalOp_code_roundtrip (op : LogicalOp) :
    fUint (.int op.code) = .ok op.code.toNat ∧
    op.code ⊔ 0 = op.code ∧
    logicalOpOfCode op.code = some op := by
  cases op <;> exact ⟨rfl, by decide, rfl⟩

theorem arithOp_code_roundtrip (op : ArithOp) :
    fUint (.int op.code) = .ok op.code.toNat ∧
    op.code ⊔ 0 = op.code ∧
    arithOpOfCode op.code = some op := by
  cases op <;> exact ⟨rfl, by decide, rfl⟩

theorem unaryArithOp_code_roundtrip (op : UnaryArithOp) :
    fUint (.int op.code) = .ok op.code.toNat ∧
    op.code ⊔ 0 = op.code ∧
    unaryArithOpOfCode op.code = some op := by
  cases op <;> exact ⟨rfl, by decide, rfl⟩

theorem stringMatchOp_code_roundtrip (op : StringMatchOp) :
    fInt (.int op.code) = .ok op.code ∧
    stringMatchOpOfCode op.code = some op := by
  cases op <;> exact ⟨rfl, rfl⟩

theorem keyword_code_roundtrip (k : Keyword) :
    fUint (.int k.code) = .ok k.code.toNat ∧
    k.code ⊔ 0 = k.code ∧
    keywordOfCode k.code = some k := by
  cases k <;> exact ⟨rfl, by decide, rfl⟩

theorem unionType_code_roundtrip (ty : UnionType) :
    fUint (.int ty.code) = .ok ty.code.toNat ∧
    ty.code ⊔ 0 = ty.code ∧
    unionTypeOfCode ty.code = some ty := by
  cases ty <;> exact ⟨rfl, by decide, rfl⟩

theorem aggregateOp_code_roundtrip (op : AggregateOp) :
    fUint (.int op.code) = .ok op.code.toNat ∧
    op.code ⊔ 0 = op.code ∧
    aggregateOpOfCode op.code = some op := by
  cases op <;> exact ⟨rfl, by decide, rfl⟩

/-- The canonical builtin name resolves back to the builtin. -/
theorem name2Builtin_nameOf (fn : BuiltinOp) (h : fn ≠ .unspecified) :
    name2Builtin fn.nameOf = fn := by
  cases fn <;> first | rfl | exact absurd rfl h

/-- Stepping `decodeAppendList` over a datum that decodes to a
non-`Appended` node appends exactly that node. -/
theorem decodeAppendList_step (dec : Datum → Except String Node) (d : Datum)
    (rest : List Datum) (acc : List Node) (m : Node) (hd : dec d = .ok m)
    (hm : isAppendedNode m = false) :
    decodeAppendList dec (d :: rest) acc = decodeAppendList dec rest (acc ++ [m]) := by
  cases m <;> try simp [decodeAppendList, hd]
  all_goals exact absurd hm (by simp [isAppendedNode])

/-- Unfolding the fuelled decoder one level on a typed struct. -/
theorem decodeNode_struct (f : Nat) (ty : String) (fields : List (String × Datum)) :
    decodeNode (f + 1) (.struct (("type", .symbol ty) :: fields))
      = decodeStructBody (decodeNode f) ty fields := rfl

/-- The dispatcher sends an `aggregate` struct to `decodeAggregate`. -/
theorem decodeStructBody_aggregate (dec : Datum → Except String Node)
    (fields : List (String × Datum)) :
    decodeStructBody dec "aggregate" fields
      = decodeAggregate dec fields .opNone 0 none none none := rfl

/-- Consuming the leading `op` field of an aggregate struct. -/
theorem decodeAggregate_op_step (dec : Datum → Except String Node) (op : AggregateOp)
    (rest : List (String × Datum)) (i2 : Option Node)
    (o2 : Option (List Node × List (Node × Bool × Bool))) (f2 : Option Node) :
    decodeAggregate dec (("op", Datum.int op.code) :: rest) .opNone 0 i2 o2 f2
      = decodeAggregate dec rest op 0 i2 o2 f2 := by
  obtain ⟨hu, hsup, hc⟩ := aggregateOp_code_roundtrip op
  simp [decodeAggregate, hu, hsup, hc]

set_option maxHeartbeats 1600000 in
mutual
/-- Main helper for C2: decoding the encoding of a wellformed node (with a
recursion budget exceeding its size) succeeds and yields a node `Equals`-equal
to the original, with the same `Appended`-ness. -/
theorem decode_encode_node (n : Node) (fuel : Nat) (hwf : wellFormed n = true)
    (hfuel : sizeOf n < fuel) :
    ∃ m, decodeNode fuel n.encode = .ok m ∧ m.equalsN n = true ∧
      isAppendedNode m = isAppendedNode n :=
  match n, hwf, hfuel with
  | .bool b, hwf, hfuel => by
    obtain ⟨f, rfl⟩ : ∃ f, fuel = f + 1 := ⟨fuel - 1, by omega⟩
    exact ⟨.bool b, rfl, by simp [equalsN_bool], rfl⟩
  | .str s, hwf, hfuel => by
    obtain ⟨f, rfl⟩ : ∃ f, fuel = f + 1 := ⟨fuel - 1, by omega⟩
    exact ⟨.str s, rfl, by simp [equalsN_str], rfl⟩
  | .float q, hwf, hfuel => by
    obtain ⟨f, rfl⟩ : ∃ f, fuel = f + 1 := ⟨fuel - 1, by omega⟩
    exact ⟨.float q, rfl, by simp [equalsN_float, floatEqNum], rfl⟩
  | .int i, hwf, hfuel => by
    obtain ⟨f, rfl⟩ : ∃ f, fuel = f + 1 := ⟨fuel - 1, by omega⟩
    exact ⟨.int i, rfl, by simp [equalsN_int, intEqNum], rfl⟩
  | .rat r, hwf, hfuel => by
    obtain ⟨f, rfl⟩ : ∃ f, fuel = f + 1 := ⟨fuel - 1, by omega⟩
    exact ⟨.rat r, rfl, by simp [equalsN_rat, ratEqNum], rfl⟩
  | .ident s, hwf, hfuel => by
    obtain ⟨f, rfl⟩ : ∃ f, fuel = f + 1 := ⟨fuel - 1, by omega⟩
    exact ⟨.ident s, rfl, by simp [equalsN_ident], rfl⟩
  | .star, hwf, hfuel => by
    obtain ⟨f, rfl⟩ : ∃ f, fuel = f + 1 := ⟨fuel - 1, by omega⟩
    exact ⟨.star, rfl, by simp [equalsN_star], rfl⟩
  | .missing, hwf, hfuel => by
    obtain ⟨f, rfl⟩ : ∃ f, fuel = f + 1 := ⟨fuel - 1, by omega⟩
    exact ⟨.missing, rfl, by simp [equalsN_missing], rfl⟩
  | .null, hwf, hfuel => by
    obtain ⟨f, rfl⟩ : ∃ f, fuel = f + 1 := ⟨fuel - 1, by omega⟩
    exact ⟨.null, rfl, by simp [equalsN_null], rfl⟩
  | .timestamp t, hwf, hfuel => by
    obtain ⟨f, rfl⟩ : ∃ f, fuel = f + 1 := ⟨fuel - 1, by omega⟩
    exact ⟨.timestamp t, rfl, by simp [equalsN_timestamp], rfl⟩
  | .dot i fld, hwf, hfuel => by
    obtain ⟨f, rfl⟩ : ∃ f, fuel = f + 1 := ⟨fuel - 1, by omega⟩
    have hwfi : wellFormed i = true := by simpa [wellFormed] using hwf
    have hsz : sizeOf i < f := by simp at hfuel; omega
    obtain ⟨mi, hd, he, -⟩ := decode_encode_node i f hwfi hsz
    exact ⟨.dot mi fld,
      by simp [Node.encode, decodeNode, decodeStructBody, decodeDot, fString, hd],
      by simp [equalsN_dot, he], rfl⟩
  | .index i off, hwf, hfuel => by
    obtain ⟨f, rfl⟩ : ∃ f, fuel = f + 1 := ⟨fuel - 1, by omega⟩
    have hwfi : wellFormed i = true := by simpa [wellFormed] using hwf
    have hsz : sizeOf i < f := by simp at hfuel; omega
    obtain ⟨mi, hd, he, -⟩ := decode_encode_node i f hwfi hsz
    exact ⟨.index mi off,
      by simp [Node.encode, decodeNode, decodeStructBody, decodeIndex, fInt, hd],
      by simp [equalsN_index, he], rfl⟩
  | .member a set, hwf, hfuel => by
    obtain ⟨f, rfl⟩ : ∃ f, fuel = f + 1 := ⟨fuel - 1, by omega⟩
    have hwfa : wellFormed a = true := by simpa [wellFormed] using hwf
    have hsz : sizeOf a < f := by simp at hfuel; omega
    obtain ⟨ma, hd, he, -⟩ := decode_encode_node a f hwfa hsz
    exact ⟨.member ma set,
      by simp [Node.encode, decodeNode, decodeStructBody, decodeMember, hd],
      by simp [equalsN_member, he, datumListBeq_refl], rfl⟩
  | .lookup e els k v, hwf, hfuel => by
    obtain ⟨f, rfl⟩ : ∃ f, fuel = f + 1 := ⟨fuel - 1, by omega⟩
    have hws : wellFormed e = true ∧ wfOpt els = true := by simpa [wellFormed] using hwf
    have hsze : sizeOf e < f := by simp at hfuel; omega
    obtain ⟨me, hde, hee, -⟩ := decode_encode_node e f hws.1 hsze
    rcases decode_encode_opt els f hws.2
        (fun x hx => by subst hx; simp at hfuel; omega) with rfl | ⟨x, mx, rfl, hdx, hex⟩
    · exact ⟨.lookup me none k v,
        by simp [Node.encode, decodeNode, decodeStructBody, decodeLookup, hde],
        by simp [equalsN_lookup, hee, optNodeEquiv, datumListBeq_refl], rfl⟩
    · exact ⟨.lookup me (some mx) k v,
        by simp [Node.encode, decodeNode, decodeStructBody, decodeLookup, hde, hdx],
        by simp [equalsN_lookup, hee, hex, optNodeEquiv, datumListBeq_refl], rfl⟩
  | .cmp op l r, hwf, hfuel => by
    obtain ⟨f, rfl⟩ : ∃ f, fuel = f + 1 := ⟨fuel - 1, by omega⟩
    have hws : wellFormed l = true ∧ wellFormed r = true := by simpa [wellFormed] using hwf
    have hszl : sizeOf l < f := by simp at hfuel; omega
    have hszr : sizeOf r < f := by simp at hfuel; omega
    obtain ⟨ml, hdl, hel, -⟩ := decode_encode_node l f hws.1 hszl
    obtain ⟨mr, hdr, her, -⟩ := decode_encode_node r f hws.2 hszr
    obtain ⟨hu, hsup, hc⟩ := cmpOp_code_roundtrip op
    exact ⟨.cmp op ml mr,
      by simp [Node.encode, decodeNode, decodeStructBody, decodeCmp, hu, hsup, hc, hdl, hdr],
      by simp [equalsN_cmp, hel, her], rfl⟩
  | .stringMatch op e pat esc, hwf, hfuel => by
    obtain ⟨f, rfl⟩ : ∃ f, fuel = f + 1 := ⟨fuel - 1, by omega⟩
    have hwfe : wellFormed e = true := by simpa [wellFormed] using hwf
    have hsze : sizeOf e < f := by simp at hfuel; omega
    obtain ⟨me, hde, hee, -⟩ := decode_encode_node e f hwfe hsze
    obtain ⟨hi, hc⟩ := stringMatchOp_code_roundtrip op
    by_cases hesc : esc = ""
    · subst hesc
      exact ⟨.stringMatch op me pat "",
        by simp [Node.encode, decodeNode, decodeStructBody, decodeStringMatch, hi, hc,
          fString, hde],
        by simp [equalsN_stringMatch, hee], rfl⟩
    · exact ⟨.stringMatch op me pat esc,
        by simp [Node.encode, decodeNode, decodeStructBody, decodeStringMatch, hi, hc,
          fString, hde, hesc],
        by simp [equalsN_stringMatch, hee], rfl⟩
  | .not e, hwf, hfuel => by
    obtain ⟨f, rfl⟩ : ∃ f, fuel = f + 1 := ⟨fuel - 1, by omega⟩
    have hwfe : wellFormed e = true := by simpa [wellFormed] using hwf
    have hsze : sizeOf e < f := by simp at hfuel; omega
    obtain ⟨me, hde, hee, -⟩ := decode_encode_node e f hwfe hsze
    exact ⟨.not me,
      by simp [Node.encode, decodeNode, decodeStructBody, decodeNot, hde],
      by simp [equalsN_not, hee], rfl⟩
  | .logical op l r, hwf, hfuel => by
    obtain ⟨f, rfl⟩ : ∃ f, fuel = f + 1 := ⟨fuel - 1, by omega⟩
    have hws : wellFormed l = true ∧ wellFormed r = true := by simpa [wellFormed] using hwf
    have hszl : sizeOf l < f := by simp at hfuel; omega
    have hszr : sizeOf r < f := by simp at hfuel; omega
    obtain ⟨ml, hdl, hel, -⟩ := decode_encode_node l f hws.1 hszl
    obtain ⟨mr, hdr, her, -⟩ := decode_encode_node r f hws.2 hszr
    obtain ⟨hu, hsup, hc⟩ := logicalOp_code_roundtrip op
    exact ⟨.logical op ml mr,
      by simp [Node.encode, decodeNode, decodeStructBody, decodeLogical, hu, hsup, hc, hdl, hdr],
      by simp [equalsN_logical, hel, her], rfl⟩
  | .builtin fn text args, hwf, hfuel => by
    obtain ⟨f, rfl⟩ : ∃ f, fuel = f + 1 := ⟨fuel - 1, by omega⟩
    have hws : (!(fn == BuiltinOp.unspecified) ||
        name2Builtin text.toUpper == BuiltinOp.unspecified) = true ∧ wfList args = true := by
      simpa [wellFormed] using hwf
    have hsizes : ∀ v ∈ args, sizeOf v < f := fun v hv => by
      have h1 := List.sizeOf_lt_of_mem hv
      simp at hfuel
      omega
    obtain ⟨ms, hdl, hlen, heqs⟩ := decode_encode_list args f hws.2 hsizes
    by_cases hfn : fn = BuiltinOp.unspecified
    · subst hfn
      have hnm : name2Builtin text.toUpper = .unspecified := by simpa using hws.1
      exact ⟨.builtin .unspecified text.toUpper ms,
        by simp [Node.encode, decodeNode, decodeStructBody, decodeBuiltin, builtinName,
          fString, hnm, hdl],
        by simp [equalsN_builtin, hlen, heqs], rfl⟩
    · have hnb : name2Builtin fn.nameOf = fn := name2Builtin_nameOf fn hfn
      exact ⟨.builtin fn "" ms,
        by simp [Node.encode, decodeNode, decodeStructBody, decodeBuiltin, builtinName,
          hfn, fString, hnb, hdl],
        by simp [equalsN_builtin, hlen, heqs], rfl⟩
  | .unaryArith op c, hwf, hfuel => by
    obtain ⟨f, rfl⟩ : ∃ f, fuel = f + 1 := ⟨fuel - 1, by omega⟩
    have hwfc : wellFormed c = true := by simpa [wellFormed] using hwf
    have hszc : sizeOf c < f := by simp at hfuel; omega
    obtain ⟨mc, hdc, hec, -⟩ := decode_encode_node c f hwfc hszc
    obtain ⟨hu, hsup, hc⟩ := unaryArithOp_code_roundtrip op
    exact ⟨.unaryArith op mc,
      by simp [Node.encode, decodeNode, decodeStructBody, decodeUnaryArith, hu, hsup, hc, hdc],
      by simp [equalsN_unaryArith, hec], rfl⟩
  | .arith op l r, hwf, hfuel => by
    obtain ⟨f, rfl⟩ : ∃ f, fuel = f + 1 := ⟨fuel - 1, by omega⟩
    have hws : wellFormed l = true ∧ wellFormed r = true := by simpa [wellFormed] using hwf
    have hszl : sizeOf l < f := by simp at hfuel; omega
    have hszr : sizeOf r < f := by simp at hfuel; omega
    obtain ⟨ml, hdl, hel, -⟩ := decode_encode_node l f hws.1 hszl
    obtain ⟨mr, hdr, her, -⟩ := decode_encode_node r f hws.2 hszr
    obtain ⟨hu, hsup, hc⟩ := arithOp_code_roundtrip op
    exact ⟨.arith op ml mr,
      by simp [Node.encode, decodeNode, decodeStructBody, decodeArith, hu, hsup, hc, hdl, hdr],
      by simp [equalsN_arith, hel, her], rfl⟩
  | .appended vs, hwf, hfuel => by
    obtain ⟨f, rfl⟩ : ∃ f, fuel = f + 1 := ⟨fuel - 1, by omega⟩
    have hws : vs.all (fun v => !isAppendedNode v) = true ∧ wfList vs = true := by
      simpa [wellFormed] using hwf
    have hsizes : ∀ v ∈ vs, sizeOf v < f := fun v hv => by
      have h1 := List.sizeOf_lt_of_mem hv
      simp at hfuel
      omega
    obtain ⟨ms, hdl, hlen, heqs⟩ := decode_encode_appendList vs f hws.2 hws.1 hsizes []
    exact ⟨.appended ms,
      by simp [Node.encode, decodeNode, decodeStructBody, decodeAppend, hdl],
      by simp [equalsN_appended, hlen, heqs], rfl⟩
  | .isKey e k, hwf, hfuel => by
    obtain ⟨f, rfl⟩ : ∃ f, fuel = f + 1 := ⟨fuel - 1, by omega⟩
    have hwfe : wellFormed e = true := by simpa [wellFormed] using hwf
    have hsze : sizeOf e < f := by simp at hfuel; omega
    obtain ⟨me, hde, hee, -⟩ := decode_encode_node e f hwfe hsze
    obtain ⟨hu, hsup, hc⟩ := keyword_code_roundtrip k
    exact ⟨.isKey me k,
      by simp [Node.encode, decodeNode, decodeStructBody, decodeIs, hu, hsup, hc, hde],
      by simp [equalsN_isKey, hee], rfl⟩
  | .caseExpr limbs els val, hwf, hfuel => by
    obtain ⟨f, rfl⟩ : ∃ f, fuel = f + 1 := ⟨fuel - 1, by omega⟩
    have hws : wfLimbs limbs = true ∧ wfOpt els = true := by simpa [wellFormed] using hwf
    have hsizes : ∀ p ∈ limbs, sizeOf p < f := fun p hp => by
      have h1 := List.sizeOf_lt_of_mem hp
      simp at hfuel
      omega
    obtain ⟨mls, hdl, hlen, heqs⟩ := decode_encode_limbs limbs f hws.1 hsizes []
    rcases decode_encode_opt els f hws.2
        (fun x hx => by subst hx; simp at hfuel; omega) with rfl | ⟨x, mx, rfl, hdx, hex⟩
    · by_cases hval : val = ""
      · subst hval
        exact ⟨.caseExpr mls none "",
          by simp [Node.encode, decodeNode, decodeStructBody, decodeCase, hdl],
          by simp [equalsN_caseExpr, hlen, heqs], rfl⟩
      · exact ⟨.caseExpr mls none val,
          by simp [Node.encode, decodeNode, decodeStructBody, decodeCase, hdl, hval, fString],
          by simp [equalsN_caseExpr, hlen, heqs], rfl⟩
    · by_cases hval : val = ""
      · subst hval
        exact ⟨.caseExpr mls (some mx) "",
          by simp [Node.encode, decodeNode, decodeStructBody, decodeCase, hdl, hdx],
          by simp [equalsN_caseExpr, hlen, heqs, hex], rfl⟩
      · exact ⟨.caseExpr mls (some mx) val,
          by simp [Node.encode, decodeNode, decodeStructBody, decodeCase, hdl, hdx, hval,
            fString],
          by simp [equalsN_caseExpr, hlen, heqs, hex], rfl⟩
  | .cast e ty, hwf, hfuel => by
    obtain ⟨f, rfl⟩ : ∃ f, fuel = f + 1 := ⟨fuel - 1, by omega⟩
    have hwfe : wellFormed e = true := by simpa [wellFormed] using hwf
    have hsze : sizeOf e < f := by simp at hfuel; omega
    obtain ⟨me, hde, hee, -⟩ := decode_encode_node e f hwfe hsze
    exact ⟨.cast me ty,
      by simp [Node.encode, decodeNode, decodeStructBody, decodeCast, fInt, hde],
      by simp [equalsN_cast, hee], rfl⟩
  | .structLit fs, hwf, hfuel => by
    obtain ⟨f, rfl⟩ : ∃ f, fuel = f + 1 := ⟨fuel - 1, by omega⟩
    obtain ⟨fs2, h1, h2, h3⟩ := constDatumFields_roundtrip fs
    exact ⟨.structLit fs2,
      by simp [Node.encode, decodeNode, decodeStructBody, decodeStructLit, constDatum,
        asConstant, h1],
      by simp [equalsN_structLit, h2, h3], rfl⟩
  | .listLit vs, hwf, hfuel => by
    obtain ⟨f, rfl⟩ : ∃ f, fuel = f + 1 := ⟨fuel - 1, by omega⟩
    obtain ⟨vs2, h1, h2, h3⟩ := constDatumList_roundtrip vs
    exact ⟨.listLit vs2,
      by simp [Node.encode, decodeNode, decodeStructBody, decodeListLit, constDatum,
        asConstant, h1],
      by simp [equalsN_listLit, h2, h3], rfl⟩
  | .unpivot t a b, hwf, hfuel => by
    obtain ⟨f, rfl⟩ : ∃ f, fuel = f + 1 := ⟨fuel - 1, by omega⟩
    have hwft : wellFormed t = true := by simpa [wellFormed] using hwf
    have hszt : sizeOf t < f := by simp at hfuel; omega
    obtain ⟨mt, hdt, het, -⟩ := decode_encode_node t f hwft hszt
    rcases a with - | sa <;> rcases b with - | sb
    · exact ⟨.unpivot mt none none,
        by simp [Node.encode, decodeNode, decodeStructBody, decodeUnpivot, hdt],
        by simp [equalsN_unpivot, het], rfl⟩
    · exact ⟨.unpivot mt none (some sb),
        by simp [Node.encode, decodeNode, decodeStructBody, decodeUnpivot, hdt, fString],
        by simp [equalsN_unpivot, het], rfl⟩
    · exact ⟨.unpivot mt (some sa) none,
        by simp [Node.encode, decodeNode, decodeStructBody, decodeUnpivot, hdt, fString],
        by simp [equalsN_unpivot, het], rfl⟩
    · exact ⟨.unpivot mt (some sa) (some sb),
        by simp [Node.encode, decodeNode, decodeStructBody, decodeUnpivot, hdt, fString],
        by simp [equalsN_unpivot, het], rfl⟩
  | .union ty l r, hwf, hfuel => by
    obtain ⟨f, rfl⟩ : ∃ f, fuel = f + 1 := ⟨fuel - 1, by omega⟩
    have hws : wellFormed l = true ∧ wellFormed r = true := by simpa [wellFormed] using hwf
    have hszl : sizeOf l < f := by simp at hfuel; omega
    have hszr : sizeOf r < f := by simp at hfuel; omega
    obtain ⟨ml, hdl, hel, -⟩ := decode_encode_node l f hws.1 hszl
    obtain ⟨mr, hdr, her, -⟩ := decode_encode_node r f hws.2 hszr
    obtain ⟨hu, hsup, hc⟩ := unionType_code_roundtrip ty
    exact ⟨.union ty ml mr,
      by simp [Node.encode, decodeNode, decodeStructBody, decodeUnion, hu, hsup, hc, hdl, hdr],
      by simp [equalsN_union, hel, her], rfl⟩
  | .aggregate op prec inner over filter, hwf, hfuel => by
    obtain ⟨f, rfl⟩ : ∃ f, fuel = f + 1 := ⟨fuel - 1, by omega⟩
    have h4 : ((if op.isApprox then decide (prec < 256) else prec == 0) &&
        wfOpt inner && wfOpt filter && aggOverWF over) = true := by
      rcases over with - | pr <;> exact hwf
    simp only [Bool.and_eq_true] at h4
    obtain ⟨⟨⟨hprec, hinner⟩, hfilter⟩, hover⟩ := h4
    have hP : ∀ rest i2 o2 f2, decodeAggregate (decodeNode f)
        ((if op.isApprox then [("precision", Datum.int (prec : Int))] else []) ++ rest)
        op 0 i2 o2 f2 = decodeAggregate (decodeNode f) rest op prec i2 o2 f2 := by
      intro rest i2 o2 f2
      cases hap : op.isApprox with
      | false =>
        have h0 : prec = 0 := by simpa [hap] using hprec
        simp [h0]
      | true =>
        have hlt : prec < 256 := by simpa [hap] using hprec
        have hu : fUint (.int (prec : Int)) = .ok (prec : Int).toNat :=
          fUint_int_nonneg _ (Int.natCast_nonneg prec)
        simp [decodeAggregate, hu, Nat.mod_eq_of_lt hlt]
    have hP0 : ∀ i2 o2 f2, decodeAggregate (decodeNode f)
        (if op.isApprox then [("precision", Datum.int (prec : Int))] else [])
        op 0 i2 o2 f2 = decodeAggregate (decodeNode f) [] op prec i2 o2 f2 := by
      intro i2 o2 f2
      have h5 := hP [] i2 o2 f2
      simpa using h5
    have hInner := decode_encode_opt inner f hinner
      (fun x hx => by subst hx; simp at hfuel; omega)
    have hFilter := decode_encode_opt filter f hfilter
      (fun x hx => by subst hx; simp at hfuel; omega)
    have hOver := decode_encode_over over f hover
      (fun pr hpr => by
        obtain ⟨pb, ob⟩ := pr
        subst hpr
        refine ⟨fun v hv => ?_, fun p hp => ?_⟩
        · have h1 := List.sizeOf_lt_of_mem hv
          simp at h1 hfuel
          omega
        · have h1 := List.sizeOf_lt_of_mem hp
          simp at h1 hfuel
          omega)
    rcases hInner with rfl | ⟨inode, mi, rfl, hdi, hei⟩
    · rcases hOver with rfl | ⟨pb, ob, ms, rs, rfl, hdp, hlenp, heqp, hdo, hleno, heqo⟩
      · rcases hFilter with rfl | ⟨fnode, mf, rfl, hdf, hef⟩
        · refine ⟨.aggregate op prec none none none, ?_, ?_, rfl⟩
          · simp only [Node.encode]
            simp [List.append_assoc]
            rw [decodeNode_struct, decodeStructBody_aggregate, decodeAggregate_op_step, hP0]
            simp [decodeAggregate]
          · rw [equalsN_aggregate]
            simp
        · refine ⟨.aggregate op prec none none (some mf), ?_, ?_, rfl⟩
          · simp only [Node.encode]
            simp [List.append_assoc]
            rw [decodeNode_struct, decodeStructBody_aggregate, decodeAggregate_op_step, hP]
            simp [decodeAggregate, hdf]
          · rw [equalsN_aggregate]
            simp [hef]
      · rcases ob with - | ⟨o1, orest⟩
        · have hrs : rs = [] := by
            cases rs with
            | nil => rfl
            | cons a t => simp at hleno
          subst hrs
          rcases hFilter with rfl | ⟨fnode, mf, rfl, hdf, hef⟩
          · refine ⟨.aggregate op prec none (some (ms, [])) none, ?_, ?_, rfl⟩
            · simp only [Node.encode]
              simp [List.append_assoc]
              rw [decodeNode_struct, decodeStructBody_aggregate, decodeAggregate_op_step, hP]
              simp [decodeAggregate, hdp]
            · rw [equalsN_aggregate]
              simp [hlenp, heqp, orderListEquals]
          · refine ⟨.aggregate op prec none (some (ms, [])) (some mf), ?_, ?_, rfl⟩
            · simp only [Node.encode]
              simp [List.append_assoc]
              rw [decodeNode_struct, decodeStructBody_aggregate, decodeAggregate_op_step, hP]
              simp [decodeAggregate, hdp, hdf]
            · rw [equalsN_aggregate]
              simp [hlenp, heqp, hef, orderListEquals]
        · rcases hFilter with rfl | ⟨fnode, mf, rfl, hdf, hef⟩
          · refine ⟨.aggregate op prec none (some (ms, rs)) none, ?_, ?_, rfl⟩
            · simp only [Node.encode]
              simp [List.append_assoc]
              rw [decodeNode_struct, decodeStructBody_aggregate, decodeAggregate_op_step, hP]
              simp [decodeAggregate, hdp, hdo]
            · rw [equalsN_aggregate]
              simp [hlenp, heqp, hleno, heqo]
          · refine ⟨.aggregate op prec none (some (ms, rs)) (some mf), ?_, ?_, rfl⟩
            · simp only [Node.encode]
              simp [List.append_assoc]
              rw [decodeNode_struct, decodeStructBody_aggregate, decodeAggregate_op_step, hP]
              simp [decodeAggregate, hdp, hdo, hdf]
            · rw [equalsN_aggregate]
              simp [hlenp, heqp, hleno, heqo, hef]
    · rcases hOver with rfl | ⟨pb, ob, ms, rs, rfl, hdp, hlenp, heqp, hdo, hleno, heqo⟩
      · rcases hFilter with rfl | ⟨fnode, mf, rfl, hdf, hef⟩
        · refine ⟨.aggregate op prec (some mi) none none, ?_, ?_, rfl⟩
          · simp only [Node.encode]
            simp [List.append_assoc]
            rw [decodeNode_struct, decodeStructBody_aggregate, decodeAggregate_op_step, hP]
            simp [decodeAggregate, hdi]
          · rw [equalsN_aggregate]
            simp [hei]
        · refine ⟨.aggregate op prec (some mi) none (some mf), ?_, ?_, rfl⟩
          · simp only [Node.encode]
            simp [List.append_assoc]
            rw [decodeNode_struct, decodeStructBody_aggregate, decodeAggregate_op_step, hP]
            simp [decodeAggregate, hdi, hdf]
          · rw [equalsN_aggregate]
            simp [hei, hef]
      · rcases ob with - | ⟨o1, orest⟩
        · have hrs : rs = [] := by
            cases rs with
            | nil => rfl
            | cons a t => simp at hleno
          subst hrs
          rcases hFilter with rfl | ⟨fnode, mf, rfl, hdf, hef⟩
          · refine ⟨.aggregate op prec (some mi) (some (ms, [])) none, ?_, ?_, rfl⟩
            · simp only [Node.encode]
              simp [List.append_assoc]
              rw [decodeNode_struct, decodeStructBody_aggregate, decodeAggregate_op_step, hP]
              simp [decodeAggregate, hdi, hdp]
            · rw [equalsN_aggregate]
              simp [hei, hlenp, heqp, orderListEquals]
          · refine ⟨.aggregate op prec (some mi) (some (ms, [])) (some mf), ?_, ?_, rfl⟩
            · simp only [Node.encode]
              simp [List.append_assoc]
              rw [decodeNode_struct, decodeStructBody_aggregate, decodeAggregate_op_step, hP]
              simp [decodeAggregate, hdi, hdp, hdf]
            · rw [equalsN_aggregate]
              simp [hei, hlenp, heqp, hef, orderListEquals]
        · rcases hFilter with rfl | ⟨fnode, mf, rfl, hdf, hef⟩
          · refine ⟨.aggregate op prec (some mi) (some (ms, rs)) none, ?_, ?_, rfl⟩
            · simp only [Node.encode]
              simp [List.append_assoc]
              rw [decodeNode_struct, decodeStructBody_aggregate, decodeAggregate_op_step, hP]
              simp [decodeAggregate, hdi, hdp, hdo]
            · rw [equalsN_aggregate]
              simp [hei, hlenp, heqp, hleno, heqo]
          · refine ⟨.aggregate op prec (some mi) (some (ms, rs)) (some mf), ?_, ?_, rfl⟩
            · simp only [Node.encode]
              simp [List.append_assoc]
              rw [decodeNode_struct, decodeStructBody_aggregate, decodeAggregate_op_step, hP]
              simp [decodeAggregate, hdi, hdp, hdo, hdf]
            · rw [equalsN_aggregate]
              simp [hei, hlenp, heqp, hleno, heqo, hef]

termination_by sizeOf n

theorem decode_encode_list (ns : List Node) (f : Nat) (hwf : wfList ns = true)
    (hfuel : ∀ v ∈ ns, sizeOf v < f) :
    ∃ ms, decodeNodeList (decodeNode f) (encodeList ns) = .ok ms ∧
      ms.length = ns.length ∧ nodeListEquals ms ns = true :=
  match ns, hwf, hfuel with
  | [], _, _ => ⟨[], rfl, rfl, by simp [nodeListEquals]⟩
  | v :: rest, hwf, hfuel => by
    have hws : wellFormed v = true ∧ wfList rest = true := by simpa [wfList] using hwf
    obtain ⟨mv, hdv, hev, -⟩ :=
      decode_encode_node v f hws.1 (hfuel v (List.mem_cons_self v rest))
    obtain ⟨ms, hds, hlen, heqs⟩ := decode_encode_list rest f hws.2
      (fun u hu => hfuel u (List.mem_cons_of_mem v hu))
    exact ⟨mv :: ms, by simp [encodeList, decodeNodeList, hdv, hds],
      by simp [hlen], by simp [nodeListEquals, hev, heqs]⟩

termination_by sizeOf ns

theorem decode_encode_appendList (ns : List Node) (f : Nat) (hwf : wfList ns = true)
    (hne : ns.all (fun v => !isAppendedNode v) = true)
    (hfuel : ∀ v ∈ ns, sizeOf v < f) :
    ∀ acc, ∃ ms, decodeAppendList (decodeNode f) (encodeList ns) acc = .ok (acc ++ ms) ∧
      ms.length = ns.length ∧ nodeListEquals ms ns = true :=
  match ns, hwf, hne, hfuel with
  | [], _, _, _ => fun acc =>
    ⟨[], by simp [encodeList, decodeAppendList], rfl, by simp [nodeListEquals]⟩
  | v :: rest, hwf, hne, hfuel => by
    intro acc
    have hws : wellFormed v = true ∧ wfList rest = true := by simpa [wfList] using hwf
    have hnes : isAppendedNode v = false ∧
        rest.all (fun u => !isAppendedNode u) = true := by simpa using hne
    obtain ⟨mv, hdv, hev, happv⟩ :=
      decode_encode_node v f hws.1 (hfuel v (List.mem_cons_self v rest))
    have happ : isAppendedNode mv = false := by rw [happv]; exact hnes.1
    obtain ⟨ms, hds, hlen, heqs⟩ := decode_encode_appendList rest f hws.2 hnes.2
      (fun u hu => hfuel u (List.mem_cons_of_mem v hu)) (acc ++ [mv])
    refine ⟨mv :: ms, ?_, by simp [hlen], by simp [nodeListEquals, hev, heqs]⟩
    rw [show encodeList (v :: rest) = v.encode :: encodeList rest from by simp [encodeList]]
    rw [decodeAppendList_step (decodeNode f) v.encode (encodeList rest) acc mv hdv happ]
    rw [hds]
    simp

termination_by sizeOf ns

theorem decode_encode_limbs (ls : List (Node × Node)) (f : Nat) (hwf : wfLimbs ls = true)
    (hfuel : ∀ p ∈ ls, sizeOf p < f) :
    ∀ acc, ∃ ms, decodeLimbList (decodeNode f) (encodeLimbs ls) acc = .ok (acc ++ ms) ∧
      ms.length = ls.length ∧ limbListEquals ms ls = true :=
  match ls, hwf, hfuel with
  | [], _, _ => fun acc =>
    ⟨[], by simp [encodeLimbs, decodeLimbList], rfl, by simp [limbListEquals]⟩
  | (w, t) :: rest, hwf, hfuel => by
    intro acc
    have hws : (wellFormed w = true ∧ wellFormed t = true) ∧ wfLimbs rest = true := by
      simpa [wfLimbs] using hwf
    have hp := hfuel (w, t) (List.mem_cons_self _ _)
    have hszw : sizeOf w < f := by simp at hp; omega
    have hszt : sizeOf t < f := by simp at hp; omega
    obtain ⟨mw, hdw, hew, -⟩ := decode_encode_node w f hws.1.1 hszw
    obtain ⟨mt, hdt, het, -⟩ := decode_encode_node t f hws.1.2 hszt
    obtain ⟨ms, hds, hlen, heqs⟩ := decode_encode_limbs rest f hws.2
      (fun u hu => hfuel u (List.mem_cons_of_mem _ hu)) (acc ++ [(mw, mt)])
    refine ⟨(mw, mt) :: ms, ?_, by simp [hlen], by simp [limbListEquals, hew, het, heqs]⟩
    rw [show encodeLimbs ((w, t) :: rest)
        = Datum.list [w.encode, t.encode] :: encodeLimbs rest from by simp [encodeLimbs]]
    rw [show decodeLimbList (decodeNode f)
          (Datum.list [w.encode, t.encode] :: encodeLimbs rest) acc
        = decodeLimbList (decodeNode f) (encodeLimbs rest) (acc ++ [(mw, mt)]) from by
      simp [decodeLimbList, hdw, hdt]]
    rw [hds]
    simp

termination_by sizeOf ls

theorem decode_encode_orders (os : List (Node × Bool × Bool)) (f : Nat)
    (hwf : wfOrders os = true) (hfuel : ∀ p ∈ os, sizeOf p < f) :
    ∃ rs, decodeOrders (decodeNode f) (encodeOrders os) = .ok rs ∧
      rs.length = os.length ∧ orderListEquals rs os = true :=
  match os, hwf, hfuel with
  | [], _, _ => ⟨[], rfl, rfl, by simp [orderListEquals]⟩
  | (c, dsc, nl) :: rest, hwf, hfuel => by
    have hws : wellFormed c = true ∧ wfOrders rest = true := by simpa [wfOrders] using hwf
    have hp := hfuel (c, dsc, nl) (List.mem_cons_self _ _)
    have hszc : sizeOf c < f := by simp at hp; omega
    obtain ⟨mc, hdc, hec, -⟩ := decode_encode_node c f hws.1 hszc
    obtain ⟨rs, hds, hlen, heqs⟩ := decode_encode_orders rest f hws.2
      (fun u hu => hfuel u (List.mem_cons_of_mem _ hu))
    exact ⟨(mc, dsc, nl) :: rs,
      by simp [encodeOrders, decodeOrders, hdc, hds],
      by simp [hlen], by simp [orderListEquals, hec, heqs]⟩
termination_by sizeOf os

theorem decode_encode_opt (o : Option Node) (f : Nat) (hwf : wfOpt o = true)
    (hfuel : ∀ x, o = some x → sizeOf x < f) :
    o = none ∨ ∃ x mx, o = some x ∧ decodeNode f x.encode = .ok mx ∧ mx.equalsN x = true :=
  match o, hwf with
  | none, _ => Or.inl rfl
  | some x, hwf => by
    have hwfx : wellFormed x = true := by simpa [wfOpt] using hwf
    obtain ⟨mx, hdx, hex, -⟩ := decode_encode_node x f hwfx (hfuel x rfl)
    exact Or.inr ⟨x, mx, rfl, hdx, hex⟩
termination_by sizeOf o

theorem decode_encode_over (ov : Option (List Node × List (Node × Bool × Bool))) (f : Nat)
    (hwf : aggOverWF ov = true)
    (hfuel : ∀ pr, ov = some pr →
      (∀ v ∈ pr.1, sizeOf v < f) ∧ (∀ p ∈ pr.2, sizeOf p < f)) :
    ov = none ∨ ∃ pb ob ms rs, ov = some (pb, ob) ∧
      decodeNodeList (decodeNode f) (encodeList pb) = .ok ms ∧
      ms.length = pb.length ∧ nodeListEquals ms pb = true ∧
      decodeOrders (decodeNode f) (encodeOrders ob) = .ok rs ∧
      rs.length = ob.length ∧ orderListEquals rs ob = true :=
  match ov, hwf with
  | none, _ => Or.inl rfl
  | some (pb, ob), hwf => by
    have hwp : wfList pb = true ∧ wfOrders ob = true := by simpa [aggOverWF] using hwf
    obtain ⟨ms, hdp, hlenp, heqp⟩ := decode_encode_list pb f hwp.1 ((hfuel (pb, ob) rfl).1)
    obtain ⟨rs, hdo, hleno, heqo⟩ := decode_encode_orders ob f hwp.2 ((hfuel (pb, ob) rfl).2)
    exact Or.inr ⟨pb, ob, ms, rs, rfl, hdp, hlenp, heqp, hdo, hleno, heqo⟩
termination_by sizeOf ov
end

/-- C2 counterexample: the aggregate `COUNT(*)` with `Precision` 1 encodes
without a `precision` field (the encoder writes it only for the approximate
ops), so decoding yields precision 0, and `Equals` — which always compares
the precision — rejects the round trip.  Such a node violates the
wellformedness invariant the Go constructors maintain. -/
theorem decode_encode_counterexample :
    decodeNode 100 ((Node.aggregate .count 1 (some .star) none none).encode)
      = .ok (.aggregate .count 0 (some .star) none none) ∧
    (Node.aggregate .count 0 (some .star) none none).equalsN
      (.aggregate .count 1 (some .star) none none) = false ∧
    wellFormed (.aggregate .count 1 (some .star) none none) = false := by
  refine ⟨rfl, ?_, by decide⟩
  rw [equalsN_aggregate]
  simp

/-- C2 (amended): for every wellformed AST node `n` — aggregate precision
byte-sized and only on the approximate-count ops, by-name builtins
unresolvable, no directly nested `Appended` — and every recursion budget
exceeding the node's size, decoding the encoding of `n` succeeds and yields
a node equivalent to `n` under the structural equality `Equals`. -/
theorem decode_encode_roundtrip (n : Node) (fuel : Nat) (hwf : wellFormed n = true)
    (hfuel : sizeOf n < fuel) :
    ∃ m, decodeNode fuel n.encode = .ok m ∧ m.equalsN n = true := by
  obtain ⟨m, h1, h2, -⟩ := decode_encode_node n fuel hwf hfuel
  exact ⟨m, h1, h2⟩

/-- Witness for `decode_encode_roundtrip` at the node `x.f = 3`. -/
theorem decode_encode_roundtrip_witness :
    wellFormed (Node.cmp .eq (.dot (.ident "x") "f") (.int 3)) = true ∧
    sizeOf (Node.cmp .eq (.dot (.ident "x") "f") (.int 3)) < 100000 ∧
    ∃ m, decodeNode 100000 ((Node.cmp .eq (.dot (.ident "x") "f") (.int 3)).encode)
        = .ok m ∧
      m.equalsN (.cmp .eq (.dot (.ident "x") "f") (.int 3)) = true :=
  ⟨by decide, by decide,
    decode_encode_roundtrip (.cmp .eq (.dot (.ident "x") "f") (.int 3)) 100000
      (by decide) (by decide)⟩

/-- C1 counterexample: with x-filter `c AND c` and y-filter `c`, where `c`
compares a timestamp literal (so `canRemoveHint c = false`), the table
expressions are structurally equal and every top-level AND-conjunct of
either side has an `Equivalent` counterpart on the other side — the
claimed iff predicts a successful merge — yet the greedy matching loop of
`mergeFilterHint` consumes the single y-conjunct on the first x-conjunct,
cannot remove the duplicate, and the merge fails, so the deduplicating
walker keeps both inputs as separate slots. -/
theorem input_merge_counterexample :
    filterConj (some (Node.logical .and (.cmp .eq (.timestamp 0) (.int 0))
        (.cmp .eq (.timestamp 0) (.int 0))))
      = [.cmp .eq (.timestamp 0) (.int 0), .cmp .eq (.timestamp 0) (.int 0)] ∧
    filterConj (some (Node.cmp .eq (.timestamp 0) (.int 0)))
      = [.cmp .eq (.timestamp 0) (.int 0)] ∧
    (Node.ident "t").equalsN (.ident "t") = true ∧
    sharedIn [Node.cmp .eq (.timestamp 0) (.int 0)]
      (.cmp .eq (.timestamp 0) (.int 0)) = true ∧
    sharedIn [Node.cmp .eq (.timestamp 0) (.int 0), .cmp .eq (.timestamp 0) (.int 0)]
      (.cmp .eq (.timestamp 0) (.int 0)) = true ∧
    canRemoveHint (.cmp .eq (.timestamp 0) (.int 0)) = false ∧
    Input.merge
        ⟨.ident "t", ⟨some (.logical .and (.cmp .eq (.timestamp 0) (.int 0))
            (.cmp .eq (.timestamp 0) (.int 0))), [], false⟩, none⟩
        ⟨.ident "t", ⟨some (.cmp .eq (.timestamp 0) (.int 0)), [], false⟩, none⟩ = none ∧
    Walker.put
        ⟨[⟨.ident "t", ⟨some (.logical .and (.cmp .eq (.timestamp 0) (.int 0))
            (.cmp .eq (.timestamp 0) (.int 0))), [], false⟩, none⟩], -1⟩
        ⟨.ident "t", ⟨some (.cmp .eq (.timestamp 0) (.int 0)), [], false⟩, none⟩
      = ⟨[⟨.ident "t", ⟨some (.logical .and (.cmp .eq (.timestamp 0) (.int 0))
              (.cmp .eq (.timestamp 0) (.int 0))), [], false⟩, none⟩,
          ⟨.ident "t", ⟨some (.cmp .eq (.timestamp 0) (.int 0)), [], false⟩, none⟩], 1⟩ := by
  have hcc : Equivalent (Node.cmp .eq (.timestamp 0) (.int 0))
      (.cmp .eq (.timestamp 0) (.int 0)) = true := by
    show (Node.cmp .eq (.timestamp 0) (.int 0)).equalsN
      (.cmp .eq (.timestamp 0) (.int 0)) = true
    rw [equalsN_cmp, equalsN_timestamp, equalsN_int]
    decide
  have htab : (Node.ident "t").equalsN (.ident "t") = true := by
    rw [equalsN_ident]
    decide
  have hfind : List.findIdx?
      (fun y => Equivalent y (Node.cmp .eq (.timestamp 0) (.int 0)))
      [Node.cmp .eq (.timestamp 0) (.int 0)] = some 0 := by
    simp [List.findIdx?_cons, hcc]
  have hloop : hintLoop
      [Node.cmp .eq (.timestamp 0) (.int 0), .cmp .eq (.timestamp 0) (.int 0)]
      [Node.cmp .eq (.timestamp 0) (.int 0)] [] = none := by
    rw [show hintLoop
          [Node.cmp .eq (.timestamp 0) (.int 0), .cmp .eq (.timestamp 0) (.int 0)]
          [Node.cmp .eq (.timestamp 0) (.int 0)] []
        = hintLoop [Node.cmp .eq (.timestamp 0) (.int 0)] []
            [Node.cmp .eq (.timestamp 0) (.int 0)] from by
      simp [hintLoop, hfind, swapToFront, swapRemove]]
    simp [hintLoop, canRemoveHint, isTimestampNode]
  have hmerge : Input.merge
      ⟨.ident "t", ⟨some (.logical .and (.cmp .eq (.timestamp 0) (.int 0))
          (.cmp .eq (.timestamp 0) (.int 0))), [], false⟩, none⟩
      ⟨.ident "t", ⟨some (.cmp .eq (.timestamp 0) (.int 0)), [], false⟩, none⟩ = none := by
    simp [Input.merge, mergeFilterHint, filterConj, conjunctions, htab, hloop]
  refine ⟨rfl, rfl, htab, ?_, ?_, ?_, hmerge, ?_⟩
  · simp [sharedIn, hcc]
  · simp [sharedIn, hcc]
  · simp [canRemoveHint, isTimestampNode]
  · simp [Walker.put, putLoop, hmerge]

end Sneller
